import Mathlib

/-
Verification development for the request-handling core of the Octane HTTP
server framework (src/src/router.rs, src/src/server.rs, src/src/middlewares/mod.rs,
src/src/lib.rs).

The registry (Router), the registration surfaces of Router and of the Octane
server, Router::append, the ordered dispatcher Router::run, the inline dispatch
of Octane::catch_request (the two handler loops, the static-file fallback), and
the incremental head/body assembler of Octane::catch_request are embedded as
executable Lean functions, translated clause by clause from the source.

Parts of the repository referenced by the embedded code but not present under
src (path.rs, request.rs, responder.rs, util.rs, config.rs) are modelled from
the specification; each such definition carries a doc comment starting with
"Modelled from the spec:".

Handlers (Rust closures) are represented by opaque identifiers of type Nat;
their behaviour is supplied by an environment of type Env mapping an identifier
to a function from the request line and response accumulator to a Flow signal
and an updated accumulator.  Dispatch functions additionally return the trace
of invoked handlers (with the Flow each returned) so that invocation order is
observable.
-/

namespace OctaneM

/-- Flow enum from src/src/router.rs: the two-valued continuation signal. -/
inductive Flow where
  | Stop
  | Next

deriving instance DecidableEq, Repr for Flow

/-- Flow::should_continue from src/src/router.rs: true iff the variant is Next. -/
def Flow.should_continue : Flow → Bool
  | Flow.Next => true
  | Flow.Stop => false

/-- Modelled from the spec: RequestMethod lives in request.rs, which is not under
src.  Variants as used by router.rs and server.rs, including the routing-only
All variant and a None variant for unrecognized methods (req.method.is_some()). -/
inductive RequestMethod where
  | Get
  | Post
  | Put
  | Head
  | Delete
  | Patch
  | Options
  | All
  | None

deriving instance DecidableEq, Repr for RequestMethod

/-- Modelled from the spec: RequestMethod::is_some (request.rs is not under src);
a parsed method is "some" unless it is the unrecognized-method variant. -/
def RequestMethod.is_some (m : RequestMethod) : Bool := m != RequestMethod.None

/-- Modelled from the spec: path segments of a parsed URL pattern (path.rs is not
under src): static literal, single-segment wildcard, or named variable. -/
inductive PathSegment where
  | static (s : String)
  | wildcard
  | variableSeg (name : String)

deriving instance DecidableEq, Repr for PathSegment

/-- A parsed URL pattern is an ordered sequence of segments. -/
abbrev Pattern := List PathSegment

/-- Modelled from the spec: one pattern segment matches one concrete path
component (spec section 8): a static literal by equality, wildcard and variable
segments match any single non-empty component. -/
def segMatches : PathSegment → String → Bool
  | PathSegment.static s, c => s == c
  | PathSegment.wildcard, c => !c.isEmpty
  | PathSegment.variableSeg _, c => !c.isEmpty

/-- Modelled from the spec: a pattern matches a concrete path iff the lengths
are equal and the segments match componentwise. -/
def patMatches : Pattern → List String → Bool
  | [], [] => true
  | [], _ :: _ => false
  | _ :: _, [] => false
  | s :: ps, c :: cs => segMatches s c && patMatches ps cs

/-- Closures record from src/src/middlewares/mod.rs: a handler (identified here
by a Nat) together with its registration index. -/
structure Closures where
  closure : Nat
  index : Nat

deriving instance DecidableEq, Repr for Closures

/-- Modelled from the spec: the Response accumulator (responder.rs is not under
src) exposing the has_body flag consulted by the dispatch code, plus opaque
accumulated data. -/
structure Response where
  has_body : Bool
  data : List Nat

deriving instance DecidableEq, Repr for Response

/-- Modelled from the spec: a fresh Response accumulator (Response::new(b"") in
catch_request) has no body. -/
def Response.new : Response := { has_body := false, data := [] }

/-- Modelled from the spec: the request line of a parsed request (request.rs is
not under src): method and segmented path, the two fields dispatch consults. -/
structure RequestLine where
  method : RequestMethod
  path : List String

deriving instance DecidableEq, Repr for RequestLine

/-- Handler semantics environment: identifier to handler behaviour. -/
def Env : Type := Nat → RequestLine → Response → Flow × Response

/-- The per-method trie store.  Modelled from the spec: PathNode (path.rs is not
under src) is flattened to the list of (pattern, payload) entries it stores, in
insertion order; HashMap key presence is kept via Option. -/
abbrev PathsMap := RequestMethod → Option (List (Pattern × Closures))

/-- Router struct from src/src/router.rs: counter, middleware list and
per-method path store. -/
@[ext]
structure Router where
  route_counter : Nat
  middlewares : List Closures
  paths : PathsMap

/-- Router::new from src/src/router.rs. -/
def Router.new : Router :=
  { route_counter := 0, middlewares := [], paths := fun _ => none }

/-- Point update of the per-method store (HashMap insert). -/
def updatePaths (p : PathsMap) (m : RequestMethod) (v : List (Pattern × Closures)) : PathsMap :=
  fun m' => if m' = m then some v else p m'

/-- The inject_method! macro defined in src/src/router.rs (used by the Route
impl for Router): entry(method).or_insert(PathNode::new()).insert(pattern,
Closures with index = route_counter), then route_counter += 1. -/
def routerInjectMethod (r : Router) (pat : Pattern) (h : Nat) (m : RequestMethod) : Router :=
  let node := (r.paths m).getD []
  { r with
    paths := updatePaths r.paths m (node ++ [(pat, { closure := h, index := r.route_counter })]),
    route_counter := r.route_counter + 1 }

/-- Router::get from src/src/router.rs. -/
def Router.get (r : Router) (pat : Pattern) (h : Nat) : Router :=
  routerInjectMethod r pat h RequestMethod.Get

/-- Router::post from src/src/router.rs. -/
def Router.post (r : Router) (pat : Pattern) (h : Nat) : Router :=
  routerInjectMethod r pat h RequestMethod.Post

/-- Router::put from src/src/router.rs. -/
def Router.put (r : Router) (pat : Pattern) (h : Nat) : Router :=
  routerInjectMethod r pat h RequestMethod.Put

/-- Router::head from src/src/router.rs. -/
def Router.head (r : Router) (pat : Pattern) (h : Nat) : Router :=
  routerInjectMethod r pat h RequestMethod.Head

/-- Router::delete from src/src/router.rs. -/
def Router.delete (r : Router) (pat : Pattern) (h : Nat) : Router :=
  routerInjectMethod r pat h RequestMethod.Delete

/-- Router::patch from src/src/router.rs. -/
def Router.patch (r : Router) (pat : Pattern) (h : Nat) : Router :=
  routerInjectMethod r pat h RequestMethod.Patch

/-- Router::add_route from src/src/router.rs: registers under RequestMethod::All. -/
def Router.add_route (r : Router) (pat : Pattern) (h : Nat) : Router :=
  routerInjectMethod r pat h RequestMethod.All

/-- Router::add from src/src/router.rs: pushes a middleware Closures with index
= route_counter, then increments the counter. -/
def Router.add (r : Router) (h : Nat) : Router :=
  { r with
    middlewares := r.middlewares ++ [{ closure := h, index := r.route_counter }],
    route_counter := r.route_counter + 1 }

/-- One registration command on the Router surface: a pattern-bound route under
a method (covering get/post/put/head/delete/patch/add_route) or a middleware
(Router::add). -/
inductive Cmd where
  | route (m : RequestMethod) (pat : Pattern) (h : Nat)
  | mw (h : Nat)

/-- Apply one registration command. -/
def applyCmd (r : Router) : Cmd → Router
  | Cmd.route m pat h => routerInjectMethod r pat h m
  | Cmd.mw h => Router.add r h

/-- A Router obtained by running a sequence of registrations on Router::new. -/
def build (cmds : List Cmd) : Router := cmds.foldl applyCmd Router.new

/-- Index shift applied by Router::append to the appended router's path entries. -/
def shiftEntries (k : Nat) (l : List (Pattern × Closures)) : List (Pattern × Closures) :=
  l.map (fun e => (e.1, { e.2 with index := e.2.index + k }))

/-- Router::append from src/src/router.rs: merge the other router's path entries
(indices shifted by self.route_counter) into self (extend on existing method
keys, insert otherwise), extend middlewares with shifted indices, and advance
the counter by the other counter. -/
def Router.append (a b : Router) : Router :=
  { route_counter := a.route_counter + b.route_counter,
    middlewares :=
      a.middlewares ++ b.middlewares.map (fun c => { c with index := c.index + a.route_counter }),
    paths := fun m =>
      match b.paths m with
      | none => a.paths m
      | some bl => some ((a.paths m).getD [] ++ shiftEntries a.route_counter bl) }

/-- The exported inject_method! macro from src/src/middlewares/mod.rs, the one
imported by src/src/server.rs (use crate::inject_method): it only inserts when
paths already has an entry for the method (get_mut), assigns index =
route_counter + 1, and does NOT increment route_counter. -/
def serverInjectMethod (r : Router) (pat : Pattern) (h : Nat) (m : RequestMethod) : Router :=
  match r.paths m with
  | none => r
  | some node =>
    { r with
      paths := updatePaths r.paths m (node ++ [(pat, { closure := h, index := r.route_counter + 1 })]) }

/-- Octane server state from src/src/server.rs: the settings' static directory
map (directories identified by Nat) and the router. -/
structure Octane where
  static_dir : List (List String × List Nat)
  router : Router

/-- Octane::new from src/src/server.rs. -/
def Octane.new : Octane := { static_dir := [], router := Router.new }

/-- Octane::get from the Route impl in src/src/server.rs (goes through the
middlewares/mod.rs inject_method! macro). -/
def Octane.get (o : Octane) (pat : Pattern) (h : Nat) : Octane :=
  { o with router := serverInjectMethod o.router pat h RequestMethod.Get }

/-- Octane::post from the Route impl in src/src/server.rs. -/
def Octane.post (o : Octane) (pat : Pattern) (h : Nat) : Octane :=
  { o with router := serverInjectMethod o.router pat h RequestMethod.Post }

/-- Octane::put from the Route impl in src/src/server.rs. -/
def Octane.put (o : Octane) (pat : Pattern) (h : Nat) : Octane :=
  { o with router := serverInjectMethod o.router pat h RequestMethod.Put }

/-- Octane::head from the Route impl in src/src/server.rs. -/
def Octane.head (o : Octane) (pat : Pattern) (h : Nat) : Octane :=
  { o with router := serverInjectMethod o.router pat h RequestMethod.Head }

/-- Octane::options from the Route impl in src/src/server.rs. -/
def Octane.options (o : Octane) (pat : Pattern) (h : Nat) : Octane :=
  { o with router := serverInjectMethod o.router pat h RequestMethod.Options }

/-- Octane::add_route from the Route impl in src/src/server.rs. -/
def Octane.add_route (o : Octane) (pat : Pattern) (h : Nat) : Octane :=
  { o with router := serverInjectMethod o.router pat h RequestMethod.All }

/-- Octane::add from the Route impl in src/src/server.rs: registers under the
pattern "/*" and RequestMethod::All (not on the middleware list). -/
def Octane.add (o : Octane) (h : Nat) : Octane :=
  { o with router := serverInjectMethod o.router [PathSegment.wildcard] h RequestMethod.All }

/-- Octane::use_router from src/src/server.rs: the body is commented out
(FIXME), so the call does nothing. -/
def Octane.use_router (o : Octane) (_r : Router) : Octane := o

/-- Modelled from the spec: PathNode::get (path.rs is not under src) returns the
payloads of all stored patterns matching the concrete path. -/
def matchList (node : List (Pattern × Closures)) (path : List String) : List Closures :=
  (node.filter (fun e => patMatches e.1 path)).map (fun e => e.2)

/-- Matching entries of a router for a method and concrete path (empty when the
method key is absent). -/
def matchesFor (r : Router) (m : RequestMethod) (path : List String) : List Closures :=
  matchList ((r.paths m).getD []) path

/-- Ordering of Closures by registration index (sort_by_key in Router::run). -/
def leIdx (a b : Closures) : Prop := a.index ≤ b.index

instance : DecidableRel leIdx := fun a b => Nat.decLe a.index b.index

instance : IsTotal Closures leIdx := ⟨fun a b => Nat.le_total a.index b.index⟩

instance : IsTrans Closures leIdx := ⟨fun _ _ _ => Nat.le_trans⟩

/-- routes.sort_by_key(|v| v.index) in Router::run: a stable sort by index. -/
def sortIdx (l : List Closures) : List Closures := List.insertionSort leIdx l

/-- One iteration of the k-way-merge selection loop in Router::run: scan the
sources left to right, pick the one whose current head has the strictly
smallest index (the leftmost wins ties, matching the strict less-than update in
the source), and advance that source's cursor.  none corresponds to all
sources being exhausted, a state the source loop never reaches. -/
def runStep : List (List Closures) → Option (Closures × List (List Closures))
  | [] => none
  | [] :: rest =>
    match runStep rest with
    | none => none
    | some (c, rs) => some (c, [] :: rs)
  | (c :: cs) :: rest =>
    match runStep rest with
    | none => some (c, cs :: rest)
    | some (c', rest') =>
      if c.index ≤ c'.index then some (c, cs :: rest) else some (c', (c :: cs) :: rest')

/-- The merge loop of Router::run (for _ in 0..total): select the minimum head,
invoke it, advance, and break when the returned Flow is not Next.  The fuel
argument plays the role of the loop bound total. -/
def runAux (env : Env) (rl : RequestLine) :
    Nat → List (List Closures) → Response → Response × List (Closures × Flow)
  | 0, _, res => (res, [])
  | Nat.succ n, srcs, res =>
    match runStep srcs with
    | none => (res, [])
    | some (c, srcs') =>
      let fr := env c.closure rl res
      if fr.1.should_continue then
        let out := runAux env rl n srcs' fr.2
        (out.1, (c, fr.1) :: out.2)
      else (fr.2, [(c, fr.1)])

/-- Router::run from src/src/router.rs: collect the (index-sorted) match lists
of the request-method trie and the All trie when present, plus the middleware
list, and run the k-way merge loop for total iterations. -/
def Router.run (env : Env) (r : Router) (rl : RequestLine) (res : Response) :
    Response × List (Closures × Flow) :=
  let s1 : List (List Closures) :=
    match r.paths rl.method with
    | some node => [sortIdx (matchList node rl.path)]
    | none => []
  let s2 : List (List Closures) :=
    match r.paths RequestMethod.All with
    | some node => [sortIdx (matchList node rl.path)]
    | none => []
  let srcs := s1 ++ s2 ++ [r.middlewares]
  runAux env rl ((srcs.map List.length).sum) srcs res

/-- One handler loop of Octane::catch_request: for each matched entry, break
out of the loop when the response already has a body, invoke the entry when
the running Flow is Next, and otherwise keep scanning without invoking. -/
def execList (env : Env) (rl : RequestLine) :
    List Closures → Flow → Response → Flow × Response × List (Closures × Flow)
  | [], f, res => (f, res, [])
  | c :: rest, f, res =>
    if res.has_body then (f, res, [])
    else if f.should_continue then
      let fr := env c.closure rl res
      let out := execList env rl rest fr.1 fr.2
      (out.1, out.2.1, (c, fr.1) :: out.2.2)
    else execList env rl rest f res

/-- The two handler loops of Octane::catch_request: the request-method trie
matches first, then the All-trie matches, threading the Flow counter and the
response accumulator.  The middleware list is not consulted there. -/
def dispatchLoops (env : Env) (r : Router) (rl : RequestLine) (res : Response) :
    Flow × Response × List (Closures × Flow) :=
  let o1 := execList env rl (matchesFor r rl.method rl.path) Flow.Next res
  let o2 := execList env rl (matchesFor r RequestMethod.All rl.path) o1.1 o1.2.1
  (o2.1, o2.2.1, o1.2.2 ++ o2.2.2)

/-- The static-directory prefix check of Octane::catch_request: matched is set
to false only when the parent path has a component at position i that differs
from the location prefix component; positions beyond the parent path leave
matched true. -/
def prefixMatches : List String → List String → Bool
  | [], _ => true
  | _ :: _, [] => true
  | p :: ps, v :: vs => (v == p) && prefixMatches ps vs

/-- Filesystem oracle for static serving: directory identifier and file name to
the served bytes, none when the file does not exist. -/
def ServeFile : Type := Nat → String → Option (List Nat)

/-- The inner directory loop of the static-file step: res.send_file for each
mapped directory; a missing file short-circuits to the NotFound error (none),
an existing file writes the response body. -/
def tryDirs (sf : ServeFile) (fname : String) : List Nat → Response → Option Response
  | [], res => some res
  | d :: ds, _res =>
    match sf d fname with
    | none => none
    | some content => tryDirs sf fname ds { has_body := true, data := content }

/-- The outer static-directory loop of Octane::catch_request: for every location
whose prefix matches the parent path, and only for GET requests, try all mapped
directories. -/
def tryLocs (sf : ServeFile) (fname : String) (isGet : Bool) (parent : List String) :
    List (List String × List Nat) → Response → Option Response
  | [], res => some res
  | loc :: rest, res =>
    if prefixMatches loc.1 parent then
      if isGet then
        match tryDirs sf fname loc.2 res with
        | none => none
        | some res' => tryLocs sf fname isGet parent rest res'
      else tryLocs sf fname isGet parent rest res
    else tryLocs sf fname isGet parent rest res

/-- Outcome of one request cycle in Octane::catch_request. -/
inductive Outcome where
  | badRequest
  | notImplemented
  | notFound
  | ioError
  | sent (res : Response)

deriving instance DecidableEq, Repr for Outcome

/-- The empty string (used for poped.unwrap_or(String::new())). -/
def emptyStr : String := ""

/-- The response-determination part of Octane::catch_request after a request has
been parsed: NotImplemented for an unrecognized method; otherwise the two
handler loops, then (only when no body has been written) the static-file
fallback, then sending the accumulated response. -/
def serveRequest (env : Env) (r : Router) (sd : List (List String × List Nat)) (sf : ServeFile)
    (rl : RequestLine) (res0 : Response) : Outcome × List (Closures × Flow) :=
  if rl.method.is_some then
    let o := dispatchLoops env r rl res0
    if o.2.1.has_body then (Outcome.sent o.2.1, o.2.2)
    else
      match tryLocs sf ((rl.path.getLast?).getD emptyStr) (rl.method == RequestMethod.Get)
          rl.path.dropLast sd o.2.1 with
      | none => (Outcome.notFound, o.2.2)
      | some res3 => (Outcome.sent res3, o.2.2)
  else (Outcome.notImplemented, [])

/-- The CRLFCRLF head/body boundary marker. -/
def crlfcrlf : List Nat := [13, 10, 13, 10]

/-- Modelled from the spec: find_in_slice (util.rs is not under src) returns the
first index at which the needle occurs in the haystack. -/
def findSub (pat : List Nat) : List Nat → Option Nat
  | [] => if pat.isPrefixOf ([] : List Nat) then some 0 else none
  | a :: l => if pat.isPrefixOf (a :: l) then some 0 else (findSub pat l).map (· + 1)

/-- Header mapping handed over by head parsing. -/
abbrev Headers := List (String × String)

/-- Modelled from the spec: Headers::get (request.rs is not under src) looks a
header value up by its (already normalized) name. -/
def hget (hs : Headers) (k : String) : Option String :=
  (hs.find? (fun p => p.1 == k)).map (fun p => p.2)

/-- The content-length header name. -/
def contentLengthKey : String := "content-length"

/-- Modelled from the spec: decimal digit parsing for the Rust
str::parse::<usize> call, over the string's character list. -/
def parseDigits : List Char → Nat → Option Nat
  | [], acc => some acc
  | c :: cs, acc =>
    if 48 ≤ c.toNat ∧ c.toNat ≤ 57 then parseDigits cs (acc * 10 + (c.toNat - 48)) else none

/-- Modelled from the spec: str::parse::<usize> accepts a non-empty all-digit
string and fails otherwise. -/
def parseNatStr (s : String) : Option Nat :=
  match s.data with
  | [] => none
  | c :: cs => parseDigits (c :: cs) 0

/-- The body-length computation of Octane::catch_request:
headers.get("content-length").map(parse.unwrap_or(0)).unwrap_or(0). -/
def contentLength (hs : Headers) : Nat :=
  match hget hs contentLengthKey with
  | none => 0
  | some s => (parseNatStr s).getD 0

/-- Head parser: utf8 decoding plus parse_without_body (request.rs is not under
src), kept abstract as a parameter; none covers both decode and parse failure. -/
def ParseHead : Type := List Nat → Option (RequestLine × Headers)

/-- The head-reading loop of Octane::catch_request.  Each list element is what
one stream read returns; an empty read (read == 0, including an exhausted
stream) before the boundary is found fails with BadRequest (none), as does a
decode/parse failure once the boundary is found.  On success: the parsed
request line and headers, the body remainder already read past the boundary,
and the unread rest of the stream. -/
def headLoop (ph : ParseHead) :
    List (List Nat) → List Nat → Option (RequestLine × Headers × List Nat × List (List Nat))
  | [], _ => none
  | c :: rest, acc =>
    if c.isEmpty then none
    else
      let acc' := acc ++ c
      match findSub crlfcrlf acc' with
      | some i =>
        match ph (acc'.take i) with
        | some rh => some (rh.1, rh.2, acc'.drop (i + 4), rest)
        | none => none
      | none => headLoop ph rest acc'

/-- The body-completion step of Octane::catch_request.  Returns the assembled
body (none when the single read_exact cannot be satisfied from the remaining
stream, an I/O error in the source) together with the list of extra read
lengths issued. -/
def bodyStep (bodyLen : Nat) (remainder conn : List Nat) : Option (List Nat) × List Nat :=
  if 0 < bodyLen then
    if remainder.length < bodyLen then
      let need := bodyLen - remainder.length
      if need ≤ conn.length then (some (remainder ++ conn.take need), [need])
      else (none, [need])
    else (some remainder, [])
  else (some ([] : List Nat), [])

/-- Result of assembling one request from the stream. -/
inductive AsmResult where
  | badReq
  | ioErr
  | ok (rl : RequestLine) (hs : Headers) (body : List Nat)

deriving instance DecidableEq, Repr for AsmResult

/-- The full assembler of Octane::catch_request: head-reading loop followed by
the body-completion step on the flattened unread rest of the stream. -/
def assembleModel (ph : ParseHead) (cs : List (List Nat)) : AsmResult :=
  match headLoop ph cs [] with
  | none => AsmResult.badReq
  | some (rl, hs, rem, rest) =>
    match bodyStep (contentLength hs) rem rest.flatten with
    | (some body, _) => AsmResult.ok rl hs body
    | (none, _) => AsmResult.ioErr

/-- Request::parse success predicate (request.rs is not under src), kept
abstract: whether request construction accepts the assembled pieces. -/
def ReqOk : Type := RequestLine → Headers → List Nat → Bool

/-- Octane::catch_request for one request cycle: assemble, construct the
request, then determine the response; failures surface as BadRequest before
any handler runs. -/
def catchRequest (ph : ParseHead) (rok : ReqOk) (env : Env) (r : Router)
    (sd : List (List String × List Nat)) (sf : ServeFile) (cs : List (List Nat))
    (res0 : Response) : Outcome × List (Closures × Flow) :=
  match assembleModel ph cs with
  | AsmResult.badReq => (Outcome.badRequest, [])
  | AsmResult.ioErr => (Outcome.ioError, [])
  | AsmResult.ok rl hs body =>
    if rok rl hs body then serveRequest env r sd sf rl res0
    else (Outcome.badRequest, [])

/-- Index list of the entries stored for a method. -/
def entryIdxs (r : Router) (m : RequestMethod) : List Nat :=
  ((r.paths m).getD []).map (fun e => e.2.index)

/-- Environment in which every handler leaves the response alone and yields Next. -/
def envNext : Env := fun _ _ res => (Flow.Next, res)

/-- Filesystem oracle in which no file exists. -/
def sfNone : ServeFile := fun _ _ => none

/-- Head parser that rejects everything (concrete instance for witnesses). -/
def phNone : ParseHead := fun _ => none

/-- Request construction that accepts everything (concrete instance for witnesses). -/
def rokTrue : ReqOk := fun _ _ _ => true

/-- Concrete path segment used in witnesses. -/
def segX : String := "x"

/-- Concrete request line DELETE /x used in counterexamples. -/
def rlDelX : RequestLine := { method := RequestMethod.Delete, path := [segX] }

/-- An Octane server whose router was seeded with one GET route through the
Router surface (so that the GET method key exists in the paths map). -/
def octaneSeeded : Octane := { static_dir := [], router := Router.get Router.new [] 0 }

/-- Claim C1, code-bug evidence.  Registrations through the Octane server
surface go through the exported inject_method! macro of middlewares/mod.rs:
on a fresh server the handler is silently dropped (the method key does not
exist yet) and the counter stays 0; on a server whose GET trie exists, two
successive Octane registrations both receive index route_counter + 1 = 2 and
the counter is never incremented, so the second handler does not get a larger
index than the first, contradicting the claimed invariant.  The Router-side
macro in router.rs (and the spec) assign index = counter and then increment. -/
theorem octane_registration_counter_bug :
    Octane.get Octane.new [] 0 = Octane.new ∧
    entryIdxs (Octane.get (Octane.get octaneSeeded [] 1) [] 2).router RequestMethod.Get
      = [0, 2, 2] ∧
    (Octane.get (Octane.get octaneSeeded [] 1) [] 2).router.route_counter = 1 :=
  ⟨rfl, by decide, by decide⟩

/-- A handler loop started from a body-carrying response invokes nothing and
changes nothing (the break branch of the catch_request loops). -/
theorem execList_body_break (env : Env) (rl : RequestLine) (l : List Closures) (f : Flow)
    (res : Response) (h : res.has_body = true) : execList env rl l f res = (f, res, []) := by
  cases l with
  | nil => rfl
  | cons c rest => simp [execList, h]

/-- A handler loop started with a non-continuing Flow invokes nothing and
changes nothing (the counter.should_continue() guard of catch_request). -/
theorem execList_stop (env : Env) (rl : RequestLine) (l : List Closures) (f : Flow)
    (res : Response) (h : f.should_continue = false) : execList env rl l f res = (f, res, []) := by
  induction l generalizing res with
  | nil => rfl
  | cons c rest ih =>
    by_cases hb : res.has_body
    · simp [execList, hb]
    · simp [execList, hb, h, ih]

/-- In a handler-loop trace, a recorded Stop is the last invocation: the loop
keeps scanning but never invokes again. -/
theorem execList_stop_last (env : Env) (rl : RequestLine) :
    ∀ (l : List Closures) (f : Flow) (res : Response) (k : Nat) (c : Closures),
      (execList env rl l f res).2.2[k]? = some (c, Flow.Stop) →
      (execList env rl l f res).2.2.length = k + 1 ∧ (execList env rl l f res).1 = Flow.Stop := by
  intro l
  induction l with
  | nil => intro f res k c h; simp [execList] at h
  | cons c0 rest ih =>
    intro f res k c h
    by_cases hb : res.has_body
    · rw [execList_body_break env rl _ f res hb] at h ⊢
      simp at h
    · by_cases hf : f.should_continue
      · simp only [execList, hb, if_false, hf, if_true, Bool.false_eq_true] at h ⊢
        cases k with
        | zero =>
          simp at h
          have hstop : (env c0.closure rl res).1 = Flow.Stop := h.2
          rw [hstop] at h ⊢
          rw [execList_stop env rl rest Flow.Stop _ rfl]
          simp
        | succ k' =>
          simp only [List.getElem?_cons_succ] at h
          have := ih (env c0.closure rl res).1 (env c0.closure rl res).2 k' c h
          simp [this.1, this.2]
      · have hf' : f.should_continue = false := by
          cases hcc : f.should_continue
          · rfl
          · exact absurd hcc hf
        rw [execList_stop env rl _ f res hf'] at h
        simp at h

/-- In the merge loop trace of Router::run as well, a recorded Stop ends the
trace. -/
theorem runAux_stop_last (env : Env) (rl : RequestLine) :
    ∀ (n : Nat) (srcs : List (List Closures)) (res : Response) (k : Nat) (c : Closures),
      (runAux env rl n srcs res).2[k]? = some (c, Flow.Stop) →
      (runAux env rl n srcs res).2.length = k + 1 := by
  intro n
  induction n with
  | zero => intro srcs res k c h; simp [runAux] at h
  | succ m ih =>
    intro srcs res k c h
    cases hstep : runStep srcs with
    | none => simp [runAux, hstep] at h
    | some p =>
      simp only [runAux, hstep] at h ⊢
      by_cases hf : (env p.1.closure rl res).1.should_continue
      · simp only [hf, if_true] at h ⊢
        cases k with
        | zero =>
          simp at h
          have : (env p.1.closure rl res).1 = Flow.Stop := h.2
          rw [this] at hf
          simp [Flow.should_continue] at hf
        | succ k' =>
          simp only [List.getElem?_cons_succ] at h
          simp only [List.length_cons]
          exact congrArg Nat.succ (ih p.2 (env p.1.closure rl res).2 k' c h)
      · simp only [hf, Bool.false_eq_true, if_false] at h ⊢
        cases k with
        | zero => simp
        | succ k' => simp at h

/-- Claim C4: if the handler invoked at position k of the executed sequence
returns Stop, no handler at any later position is invoked: both in the ordered
dispatcher Router::run and in the inline dispatch loops of
Octane::catch_request, the invocation trace ends at position k. -/
theorem stop_short_circuits_dispatch :
    (∀ (env : Env) (r : Router) (rl : RequestLine) (res : Response) (k : Nat) (c : Closures),
      (Router.run env r rl res).2[k]? = some (c, Flow.Stop) →
      (Router.run env r rl res).2.length = k + 1) ∧
    (∀ (env : Env) (r : Router) (rl : RequestLine) (res : Response) (k : Nat) (c : Closures),
      (dispatchLoops env r rl res).2.2[k]? = some (c, Flow.Stop) →
      (dispatchLoops env r rl res).2.2.length = k + 1) := by
  constructor
  · intro env r rl res k c h
    exact runAux_stop_last env rl _ _ res k c h
  · intro env r rl res k c h
    unfold dispatchLoops at h ⊢
    simp only at h ⊢
    by_cases hlt : k < (execList env rl (matchesFor r rl.method rl.path) Flow.Next res).2.2.length
    · rw [List.getElem?_append_left hlt] at h
      have h1 := execList_stop_last env rl _ _ _ _ _ h
      have h2 := execList_stop env rl
        (matchesFor r RequestMethod.All rl.path)
        (execList env rl (matchesFor r rl.method rl.path) Flow.Next res).1
        (execList env rl (matchesFor r rl.method rl.path) Flow.Next res).2.1
        (by rw [h1.2]; rfl)
      rw [h2]
      simp [h1.1]
    · push_neg at hlt
      rw [List.getElem?_append_right hlt] at h
      have h2 := execList_stop_last env rl _ _ _ _ _ h
      simp only [List.length_append, h2.1]
      omega

/-- Witness for claim C4: a concrete dispatch in which the one registered
handler returns Stop at position 0 and the trace has length 1. -/
def envStop : Env := fun _ _ res => (Flow.Stop, res)

/-- Witness for claim C4 applied at a concrete input. -/
theorem stop_short_circuits_dispatch_witness :
    (Router.run envStop (Router.add Router.new 7) { method := RequestMethod.Get, path := [] }
      Response.new).2.length = 0 + 1 :=
  stop_short_circuits_dispatch.1 envStop (Router.add Router.new 7)
    { method := RequestMethod.Get, path := [] } Response.new 0 { closure := 7, index := 0 }
    (by decide)

/-- Claim C3: body-present law of the server dispatch in Octane::catch_request.
First conjunct: a handler loop entered with a body-carrying accumulator breaks
immediately and invokes no handler (this applies at every point of both loops,
since the loops re-check has_body before every invocation).  Second conjunct:
whenever the accumulator has a body after the two loops, the static-file
fallback is skipped and the accumulated response is sent unchanged, whatever
the filesystem contains. -/
theorem body_present_stops_dispatch :
    (∀ (env : Env) (rl : RequestLine) (l : List Closures) (f : Flow) (res : Response),
      res.has_body = true → execList env rl l f res = (f, res, [])) ∧
    (∀ (env : Env) (r : Router) (sd : List (List String × List Nat)) (sf : ServeFile)
      (rl : RequestLine) (res0 : Response),
      rl.method.is_some = true →
      (dispatchLoops env r rl res0).2.1.has_body = true →
      serveRequest env r sd sf rl res0 =
        (Outcome.sent (dispatchLoops env r rl res0).2.1, (dispatchLoops env r rl res0).2.2)) := by
  constructor
  · exact fun env rl l f res h => execList_body_break env rl l f res h
  · intro env r sd sf rl res0 hm hb
    simp [serveRequest, hm, hb]

/-- A response accumulator that already carries a body. -/
def resWithBody : Response := { has_body := true, data := [1] }

/-- Witness for claim C3 at a concrete input: a matched handler list is not
invoked at all when the accumulator already has a body. -/
theorem body_present_stops_dispatch_witness :
    execList envNext rlDelX [{ closure := 3, index := 0 }] Flow.Next resWithBody
      = (Flow.Next, resWithBody, []) :=
  body_present_stops_dispatch.1 envNext rlDelX [{ closure := 3, index := 0 }] Flow.Next
    resWithBody rfl

/-- All RequestMethod variants. -/
def methodsList : List RequestMethod :=
  [RequestMethod.Get, RequestMethod.Post, RequestMethod.Put, RequestMethod.Head,
   RequestMethod.Delete, RequestMethod.Patch, RequestMethod.Options, RequestMethod.All,
   RequestMethod.None]

theorem mem_methodsList (m : RequestMethod) : m ∈ methodsList := by
  cases m <;> simp [methodsList]

/-- The handler identifiers stored anywhere in a router (all method tries plus
the middleware list). -/
def closuresOf (r : Router) : List Nat :=
  (methodsList.map (fun m => ((r.paths m).getD []).map (fun e => e.2.closure))).flatten
    ++ r.middlewares.map (fun c => c.closure)

/-- Every handler invoked by a catch_request loop comes from the list the loop
was given. -/
theorem execList_trace_mem (env : Env) (rl : RequestLine) :
    ∀ (l : List Closures) (f : Flow) (res : Response) (c : Closures) (fl : Flow),
      (c, fl) ∈ (execList env rl l f res).2.2 → c ∈ l := by
  intro l
  induction l with
  | nil => intro f res c fl h; simp [execList] at h
  | cons c0 rest ih =>
    intro f res c fl h
    by_cases hb : res.has_body
    · rw [execList_body_break env rl _ f res hb] at h
      simp at h
    · by_cases hf : f.should_continue
      · simp only [execList, hb, Bool.false_eq_true, if_false, hf, if_true] at h
        rcases List.mem_cons.1 h with heq | hmem
        · have : c = c0 := congrArg Prod.fst heq
          simp [this]
        · exact List.mem_cons_of_mem _ (ih _ _ c fl hmem)
      · have hf' : f.should_continue = false := by
          cases hcc : f.should_continue
          · rfl
          · exact absurd hcc hf
        simp only [execList, hb, Bool.false_eq_true, if_false, hf', if_false] at h
        exact List.mem_cons_of_mem _ (ih _ _ c fl h)

/-- A matched entry's handler identifier is recorded in the router. -/
theorem matchesFor_closure_mem (r : Router) (m : RequestMethod) (path : List String)
    (c : Closures) (h : c ∈ matchesFor r m path) : c.closure ∈ closuresOf r := by
  unfold matchesFor matchList at h
  rcases List.mem_map.1 h with ⟨e, he, rfl⟩
  have hnode : e ∈ (r.paths m).getD [] := List.mem_of_mem_filter he
  apply List.mem_append_left
  apply List.mem_flatten.2
  refine ⟨((r.paths m).getD []).map (fun e => e.2.closure), ?_, ?_⟩
  · exact List.mem_map_of_mem _ (mem_methodsList m)
  · exact List.mem_map_of_mem _ hnode

/-- Every handler invoked by the catch_request dispatch is one stored in the
router it dispatches over. -/
theorem dispatch_trace_mem (env : Env) (r : Router) (rl : RequestLine) (res0 : Response)
    (c : Closures) (fl : Flow) (h : (c, fl) ∈ (dispatchLoops env r rl res0).2.2) :
    c.closure ∈ closuresOf r := by
  unfold dispatchLoops at h
  simp only [List.mem_append] at h
  cases h with
  | inl h1 => exact matchesFor_closure_mem r rl.method rl.path c (execList_trace_mem env rl _ _ _ c fl h1)
  | inr h2 =>
    exact matchesFor_closure_mem r RequestMethod.All rl.path c (execList_trace_mem env rl _ _ _ c fl h2)

/-- The trace of serveRequest is the trace of the two dispatch loops (empty for
an unrecognized method). -/
theorem serveRequest_trace (env : Env) (r : Router) (sd : List (List String × List Nat))
    (sf : ServeFile) (rl : RequestLine) (res0 : Response) :
    (serveRequest env r sd sf rl res0).2 =
      if rl.method.is_some then (dispatchLoops env r rl res0).2.2 else [] := by
  unfold serveRequest
  by_cases hm : rl.method.is_some
  · simp only [hm, if_true]
    by_cases hb : (dispatchLoops env r rl res0).2.1.has_body
    · simp [hb]
    · simp only [hb, Bool.false_eq_true, if_false]
      cases tryLocs sf ((rl.path.getLast?).getD emptyStr) (rl.method == RequestMethod.Get)
          rl.path.dropLast sd (dispatchLoops env r rl res0).2.1 <;> simp
  · simp [hm]

/-- Claim C6: Octane::use_router is a no-op (its body is commented out), so the
server state is completely unchanged, and every handler the server dispatches
afterwards is one already stored in the server's own router — in particular no
handler of the passed router (absent from the server's registry) is ever
dispatched. -/
theorem use_router_frame :
    (∀ (o : Octane) (r : Router), Octane.use_router o r = o) ∧
    (∀ (o : Octane) (r : Router) (env : Env) (sf : ServeFile) (rl : RequestLine)
      (res0 : Response) (c : Closures) (fl : Flow),
      (c, fl) ∈ (serveRequest env (Octane.use_router o r).router
        (Octane.use_router o r).static_dir sf rl res0).2 →
      c.closure ∈ closuresOf o.router) := by
  constructor
  · intro o r; rfl
  · intro o r env sf rl res0 c fl h
    rw [serveRequest_trace] at h
    by_cases hm : rl.method.is_some
    · rw [if_pos hm] at h
      exact dispatch_trace_mem env o.router rl res0 c fl h
    · rw [if_neg hm] at h
      simp at h

/-- A server holding one GET handler (identifier 5), used by the C6 witness. -/
def octaneW : Octane := { static_dir := [], router := Router.get Router.new [] 5 }

/-- Concrete request line GET / used by witnesses. -/
def rlGetRoot : RequestLine := { method := RequestMethod.Get, path := [] }

/-- Witness for claim C6 at a concrete input: after use_router, the one
dispatched handler is the server's own. -/
theorem use_router_frame_witness :
    ({ closure := 5, index := 0 } : Closures).closure ∈ closuresOf octaneW.router :=
  use_router_frame.2 octaneW Router.new envNext sfNone rlGetRoot Response.new
    { closure := 5, index := 0 } Flow.Next (by decide)

/-- When every mapped file is missing and some matching location has at least
one directory, the GET static-file step of catch_request short-circuits to the
NotFound error. -/
theorem tryLocs_mapped_missing (sf : ServeFile) (fname : String) (parent : List String) :
    ∀ (sd : List (List String × List Nat)) (res : Response),
      (∀ loc ∈ sd, prefixMatches loc.1 parent = true → ∀ d ∈ loc.2, sf d fname = none) →
      (∃ loc ∈ sd, prefixMatches loc.1 parent = true ∧ loc.2 ≠ []) →
      tryLocs sf fname true parent sd res = none := by
  intro sd
  induction sd with
  | nil => intro res _ h; simp at h
  | cons loc rest ih =>
    intro res hsf h
    have hsf' : ∀ loc' ∈ rest, prefixMatches loc'.1 parent = true →
        ∀ d ∈ loc'.2, sf d fname = none :=
      fun l hl => hsf l (List.mem_cons_of_mem _ hl)
    by_cases hp : prefixMatches loc.1 parent
    · rcases hd : loc.2 with _ | ⟨d, ds⟩
      · have h' : ∃ loc' ∈ rest, prefixMatches loc'.1 parent = true ∧ loc'.2 ≠ [] := by
          rcases h with ⟨l, hl, hpm, hne⟩
          rcases List.mem_cons.1 hl with rfl | hmem
          · exact absurd hd hne
          · exact ⟨l, hmem, hpm, hne⟩
        simp [tryLocs, hp, hd, tryDirs, ih res hsf' h']
      · have hmiss : sf d fname = none := by
          have hmem : d ∈ loc.2 := by rw [hd]; exact List.mem_cons_self _ _
          exact hsf loc (List.mem_cons_self _ _) (by simpa using hp) d hmem
        simp [tryLocs, hp, hd, tryDirs, hmiss]
    · have h' : ∃ loc' ∈ rest, prefixMatches loc'.1 parent = true ∧ loc'.2 ≠ [] := by
        rcases h with ⟨l, hl, hpm, hne⟩
        rcases List.mem_cons.1 hl with rfl | hmem
        · exact absurd hpm (by simpa using hp)
        · exact ⟨l, hmem, hpm, hne⟩
      simp [tryLocs, hp, ih res hsf' h']

/-- For a non-GET request the static-file step never touches the filesystem
and leaves the response unchanged (the method check sits inside the directory
loop). -/
theorem tryLocs_not_get (sf : ServeFile) (fname : String) (parent : List String) :
    ∀ (sd : List (List String × List Nat)) (res : Response),
      tryLocs sf fname false parent sd res = some res := by
  intro sd
  induction sd with
  | nil => intro res; rfl
  | cons loc rest ih =>
    intro res
    by_cases hp : prefixMatches loc.1 parent
    · simp [tryLocs, hp, ih res]
    · simp [tryLocs, hp, ih res]

/-- When no location prefix matches, the static-file step does nothing. -/
theorem tryLocs_no_match (sf : ServeFile) (fname : String) (isGet : Bool) (parent : List String) :
    ∀ (sd : List (List String × List Nat)) (res : Response),
      (∀ loc ∈ sd, prefixMatches loc.1 parent = false) →
      tryLocs sf fname isGet parent sd res = some res := by
  intro sd
  induction sd with
  | nil => intro res _; rfl
  | cons loc rest ih =>
    intro res h
    have hp : prefixMatches loc.1 parent = false := h loc (List.mem_cons_self loc rest)
    simp only [tryLocs, hp, Bool.false_eq_true, if_false]
    exact ih res (fun l hl => h l (List.mem_cons_of_mem _ hl))

/-- Counterexample to claim C7 as stated: DELETE /x on a server with no
handlers and no static mapping at all (so no handler writes a body and no
mapping yields a file) is answered with the empty accumulated response, not
with NotFound. -/
theorem nomatch_not_notfound_counterexample :
    (serveRequest envNext Router.new [] sfNone rlDelX Response.new).1 ≠ Outcome.notFound ∧
    (serveRequest envNext Router.new [] sfNone rlDelX Response.new).1
      = Outcome.sent Response.new ∧
    (serveRequest envNext Router.new [] sfNone rlDelX Response.new).2 = [] := by
  decide

/-- Claim C7 as amended: when no handler writes a body, the server responds
NotFound exactly in the covered-GET case — the method is GET, some static
mapping with at least one directory covers the request path, and no directory
mapped by a covering mapping contains the request's file (first conjunct).
When no static mapping covers the path (second conjunct), and likewise when
the method is not GET (third conjunct), the bodiless accumulated response is
sent instead of NotFound. -/
theorem static_fallback_amended :
    (∀ (env : Env) (r : Router) (sd : List (List String × List Nat)) (sf : ServeFile)
      (rl : RequestLine) (res0 : Response),
      rl.method = RequestMethod.Get →
      (dispatchLoops env r rl res0).2.1.has_body = false →
      (∀ loc ∈ sd, prefixMatches loc.1 rl.path.dropLast = true →
        ∀ d ∈ loc.2, sf d ((rl.path.getLast?).getD emptyStr) = none) →
      (∃ loc ∈ sd, prefixMatches loc.1 rl.path.dropLast = true ∧ loc.2 ≠ []) →
      (serveRequest env r sd sf rl res0).1 = Outcome.notFound) ∧
    (∀ (env : Env) (r : Router) (sd : List (List String × List Nat)) (sf : ServeFile)
      (rl : RequestLine) (res0 : Response),
      rl.method.is_some = true →
      (dispatchLoops env r rl res0).2.1.has_body = false →
      (∀ loc ∈ sd, prefixMatches loc.1 rl.path.dropLast = false) →
      (serveRequest env r sd sf rl res0).1
        = Outcome.sent (dispatchLoops env r rl res0).2.1) ∧
    (∀ (env : Env) (r : Router) (sd : List (List String × List Nat)) (sf : ServeFile)
      (rl : RequestLine) (res0 : Response),
      rl.method.is_some = true →
      rl.method ≠ RequestMethod.Get →
      (dispatchLoops env r rl res0).2.1.has_body = false →
      (serveRequest env r sd sf rl res0).1
        = Outcome.sent (dispatchLoops env r rl res0).2.1) := by
  refine ⟨?_, ?_, ?_⟩
  · intro env r sd sf rl res0 hmet hb hsf hex
    have hm : rl.method.is_some = true := by rw [hmet]; rfl
    have hget : (rl.method == RequestMethod.Get) = true := by rw [hmet]; rfl
    simp only [serveRequest, hm, if_true, hb, Bool.false_eq_true, if_false, hget]
    rw [tryLocs_mapped_missing sf ((rl.path.getLast?).getD emptyStr) rl.path.dropLast sd _
      hsf hex]
  · intro env r sd sf rl res0 hm hb hno
    simp only [serveRequest, hm, if_true, hb, Bool.false_eq_true, if_false]
    rw [tryLocs_no_match sf ((rl.path.getLast?).getD emptyStr) (rl.method == RequestMethod.Get)
      rl.path.dropLast sd _ hno]
  · intro env r sd sf rl res0 hm hne hb
    have hget : (rl.method == RequestMethod.Get) = false := by
      cases hbeq : rl.method == RequestMethod.Get
      · rfl
      · exact absurd (eq_of_beq hbeq) hne
    simp only [serveRequest, hm, if_true, hb, Bool.false_eq_true, if_false, hget]
    rw [tryLocs_not_get sf ((rl.path.getLast?).getD emptyStr) rl.path.dropLast sd _]

/-- A static mapping whose empty prefix covers every path, serving from one
directory (identifier 0). -/
def sdRoot : List (List String × List Nat) := [([], [0])]

/-- Concrete request line GET /x used by the C7 witness. -/
def rlGetX : RequestLine := { method := RequestMethod.Get, path := [segX] }

/-- Witness for amended claim C7 at a concrete input: GET /x with a covering
mapping whose mapped directory lacks the file yields NotFound. -/
theorem static_fallback_amended_witness :
    (serveRequest envNext Router.new sdRoot sfNone rlGetX Response.new).1 = Outcome.notFound :=
  static_fallback_amended.1 envNext Router.new sdRoot sfNone rlGetX Response.new rfl (by decide)
    (by decide) (by decide)

/-- Appending a router extended by one registration is the same as extending
the appended router by that registration. -/
theorem append_applyCmd (a b : Router) (c : Cmd) :
    Router.append a (applyCmd b c) = applyCmd (Router.append a b) c := by
  cases c with
  | mw h =>
    unfold applyCmd Router.add Router.append
    apply Router.ext
    · simp [Nat.add_assoc]
    · simp [Nat.add_comm]
    · rfl
  | route m pat h =>
    unfold applyCmd routerInjectMethod Router.append
    apply Router.ext
    · simp [Nat.add_assoc]
    · rfl
    · funext m'
      by_cases hm : m' = m
      · subst hm
        simp only [updatePaths, if_pos rfl]
        cases hbp : b.paths m' with
        | none => simp [hbp, shiftEntries, Nat.add_comm]
        | some bl => simp [hbp, shiftEntries, Nat.add_comm]
      · simp only [updatePaths, if_neg hm]

/-- Appending an empty router changes nothing. -/
theorem append_new (a : Router) : Router.append a Router.new = a := by
  apply Router.ext
  · rfl
  · simp [Router.append, Router.new]
  · funext m
    rfl

/-- Router::append commutes with running a registration sequence. -/
theorem append_foldl (a : Router) :
    ∀ (cmds : List Cmd) (b : Router),
      Router.append a (cmds.foldl applyCmd b) = cmds.foldl applyCmd (Router.append a b) := by
  intro cmds
  induction cmds with
  | nil => intro b; rfl
  | cons c cs ih =>
    intro b
    simp only [List.foldl_cons]
    rw [ih (applyCmd b c), append_applyCmd]

/-- Claim C5: appending a router built from registration sequence c2 to a
router built from sequence c1 yields, as a state (counter advanced by the
other counter, every appended entry re-indexed by the base counter), exactly
the router built by registering c1 and then c2 into a single registry — and
consequently every request is dispatched identically by the two. -/
theorem append_is_direct_registration (c1 c2 : List Cmd) :
    Router.append (build c1) (build c2) = build (c1 ++ c2) ∧
    ∀ (env : Env) (rl : RequestLine) (res : Response),
      Router.run env (Router.append (build c1) (build c2)) rl res
        = Router.run env (build (c1 ++ c2)) rl res := by
  have h : Router.append (build c1) (build c2) = build (c1 ++ c2) := by
    unfold build
    rw [List.foldl_append, append_foldl, append_new]
  exact ⟨h, fun env rl res => by rw [h]⟩

/-- Claim C8: the required body length is the content-length header value with
absent or unparsable values treated as zero (first three conjuncts); when the
bytes already read past the head boundary fall short of it, exactly one
exact-length read of precisely the missing byte count is issued and
concatenated (fourth conjunct); when they cover or exceed it, the body is
taken from them directly — the whole remainder, or the empty slice when the
required length is zero — and no extra read is issued (fifth conjunct). -/
theorem body_length_protocol (hs : Headers) (rem conn : List Nat) :
    (hget hs contentLengthKey = none → contentLength hs = 0) ∧
    (∀ s, hget hs contentLengthKey = some s → parseNatStr s = none → contentLength hs = 0) ∧
    (∀ s n, hget hs contentLengthKey = some s → parseNatStr s = some n → contentLength hs = n) ∧
    (rem.length < contentLength hs →
      contentLength hs - rem.length ≤ conn.length →
      bodyStep (contentLength hs) rem conn =
        (some (rem ++ conn.take (contentLength hs - rem.length)),
         [contentLength hs - rem.length])) ∧
    (contentLength hs ≤ rem.length →
      bodyStep (contentLength hs) rem conn
        = (some (if contentLength hs = 0 then [] else rem), ([] : List Nat))) := by
  refine ⟨?_, ?_, ?_, ?_, ?_⟩
  · intro h
    simp [contentLength, h]
  · intro s h hn
    simp [contentLength, h, hn]
  · intro s n h hn
    simp [contentLength, h, hn]
  · intro hlt hle
    have hpos : 0 < contentLength hs := Nat.lt_of_le_of_lt (Nat.zero_le _) hlt
    simp [bodyStep, hpos, hlt, hle]
  · intro hle
    by_cases h0 : contentLength hs = 0
    · simp [bodyStep, h0]
    · have hpos : 0 < contentLength hs := Nat.pos_of_ne_zero h0
      have hnlt : ¬ rem.length < contentLength hs := Nat.not_lt.2 hle
      simp [bodyStep, hpos, hnlt, h0]

/-- The decimal string five. -/
def strFive : String := "5"

/-- Headers declaring content-length five, for the C8 witness. -/
def hsC : Headers := [(contentLengthKey, strFive)]

/-- Witness for claim C8 at the spec scenario: content-length five with two
body bytes already read issues exactly one extra read of three bytes and
concatenates. -/
theorem body_length_protocol_witness :
    bodyStep (contentLength hsC) [1, 2] [3, 4, 5] = (some [1, 2, 3, 4, 5], [3]) :=
  ((body_length_protocol hsC [1, 2] [3, 4, 5]).2.2.2.1 (by decide) (by decide)).trans (by decide)

/-- If the needle does not occur in an extension of a buffer, it does not occur
in the buffer (monotonicity of the per-read boundary scan). -/
theorem findSub_prefix_none (pat : List Nat) (hne : pat ≠ []) :
    ∀ (x y : List Nat), findSub pat (x ++ y) = none → findSub pat x = none := by
  intro x
  induction x with
  | nil =>
    intro y h
    have hp : pat.isPrefixOf ([] : List Nat) = false := by
      cases pat with
      | nil => exact absurd rfl hne
      | cons p ps => rfl
    simp [findSub, hp]
  | cons a l ih =>
    intro y h
    rw [List.cons_append] at h
    by_cases hpBig : pat.isPrefixOf (a :: (l ++ y)) = true
    · rw [findSub, if_pos hpBig] at h
      exact absurd h (by simp)
    · have hSmall : ¬ (pat.isPrefixOf (a :: l) = true) := by
        intro hc
        apply hpBig
        have h1 : pat <+: (a :: l) := List.isPrefixOf_iff_prefix.1 hc
        have h2 : pat <+: a :: (l ++ y) := by
          have h3 := h1.trans (List.prefix_append (a :: l) y)
          simpa using h3
        exact List.isPrefixOf_iff_prefix.2 h2
      rw [findSub, if_neg hpBig] at h
      rw [findSub, if_neg hSmall]
      have h3 : findSub pat (l ++ y) = none := by
        rcases hopt : findSub pat (l ++ y) with _ | v
        · rfl
        · rw [hopt] at h
          simp at h
      rw [ih y h3]
      rfl

/-- If the boundary never occurs in the bytes delivered before a zero-length
read, the head-reading loop fails. -/
theorem headLoop_no_boundary (ph : ParseHead) (cs₂ : List (List Nat)) :
    ∀ (cs₁ : List (List Nat)) (acc : List Nat),
      findSub crlfcrlf (acc ++ cs₁.flatten) = none →
      headLoop ph (cs₁ ++ [] :: cs₂) acc = none := by
  intro cs₁
  induction cs₁ with
  | nil =>
    intro acc h
    simp only [List.nil_append]
    rfl
  | cons c cs ih =>
    intro acc h
    have hassoc : (acc ++ c) ++ cs.flatten = acc ++ (c :: cs).flatten := by
      simp [List.append_assoc]
    by_cases hc : c.isEmpty
    · simp [headLoop, hc]
    · have hfind : findSub crlfcrlf (acc ++ c) = none := by
        apply findSub_prefix_none crlfcrlf (by decide) (acc ++ c) cs.flatten
        rw [hassoc]
        exact h
      simp only [List.cons_append, headLoop, hc, Bool.false_eq_true, if_false, hfind]
      apply ih
      rw [hassoc]
      exact h

/-- Claim C9: a zero-length read arriving before the CRLFCRLF boundary has been
found in the accumulated buffer makes the request cycle terminate with a
BadRequest error and an empty invocation trace — no handler runs. -/
theorem zero_read_bad_request (ph : ParseHead) (rok : ReqOk) (env : Env) (r : Router)
    (sd : List (List String × List Nat)) (sf : ServeFile) (res0 : Response)
    (cs₁ cs₂ : List (List Nat)) (h : findSub crlfcrlf cs₁.flatten = none) :
    catchRequest ph rok env r sd sf (cs₁ ++ [] :: cs₂) res0 = (Outcome.badRequest, []) := by
  have hhl : headLoop ph (cs₁ ++ [] :: cs₂) [] = none := by
    apply headLoop_no_boundary
    simpa using h
  simp [catchRequest, assembleModel, hhl]

/-- Witness for claim C9 at a concrete input: one byte, then a zero read. -/
theorem zero_read_bad_request_witness :
    catchRequest phNone rokTrue envNext Router.new [] sfNone ([[71]] ++ [] :: []) Response.new
      = (Outcome.badRequest, []) :=
  zero_read_bad_request phNone rokTrue envNext Router.new [] sfNone Response.new [[71]] []
    (by decide)

/-- A found occurrence fits inside the buffer. -/
theorem findSub_some_bound (pat : List Nat) :
    ∀ (l : List Nat) (j : Nat), findSub pat l = some j → j + pat.length ≤ l.length := by
  intro l
  induction l with
  | nil =>
    intro j h
    by_cases hp : pat.isPrefixOf ([] : List Nat) = true
    · rw [findSub, if_pos hp] at h
      have hpl : pat = [] := by
        cases pat with
        | nil => rfl
        | cons p ps => simp [List.isPrefixOf] at hp
      injection h with h'
      simp [← h', hpl]
    · rw [findSub, if_neg hp] at h
      exact absurd h (by simp)
  | cons a l ih =>
    intro j h
    by_cases hp : pat.isPrefixOf (a :: l) = true
    · rw [findSub, if_pos hp] at h
      injection h with h'
      have hpre : pat <+: (a :: l) := List.isPrefixOf_iff_prefix.1 hp
      have hle := hpre.length_le
      omega
    · rw [findSub, if_neg hp] at h
      rcases hopt : findSub pat l with _ | j'
      · rw [hopt] at h
        exact absurd h (by simp)
      · rw [hopt] at h
        simp at h
        have := ih j' hopt
        simp [← h]
        omega

/-- Extending the buffer does not change an already-found first occurrence. -/
theorem findSub_append_some (pat : List Nat) :
    ∀ (x y : List Nat) (j : Nat), findSub pat x = some j → findSub pat (x ++ y) = some j := by
  intro x
  induction x with
  | nil =>
    intro y j h
    by_cases hp : pat.isPrefixOf ([] : List Nat) = true
    · rw [findSub, if_pos hp] at h
      have hpl : pat = [] := by
        cases pat with
        | nil => rfl
        | cons p ps => simp [List.isPrefixOf] at hp
      subst hpl
      injection h with h'
      subst h'
      cases y with
      | nil => rfl
      | cons b bs => rw [List.nil_append, findSub, if_pos (by simp [List.isPrefixOf])]
    · rw [findSub, if_neg hp] at h
      exact absurd h (by simp)
  | cons a l ih =>
    intro y j h
    rw [List.cons_append]
    by_cases hp : pat.isPrefixOf (a :: l) = true
    · rw [findSub, if_pos hp] at h
      have hbig : pat.isPrefixOf (a :: (l ++ y)) = true := by
        have h1 : pat <+: (a :: l) := List.isPrefixOf_iff_prefix.1 hp
        have h2 : pat <+: a :: (l ++ y) := by
          have h3 := h1.trans (List.prefix_append (a :: l) y)
          simpa using h3
        exact List.isPrefixOf_iff_prefix.2 h2
      rw [findSub, if_pos hbig]
      exact h
    · rw [findSub, if_neg hp] at h
      rcases hopt : findSub pat l with _ | j'
      · rw [hopt] at h
        exact absurd h (by simp)
      · rw [hopt] at h
        simp at h
        have hbound := findSub_some_bound pat l j' hopt
        have hbig : ¬ (pat.isPrefixOf (a :: (l ++ y)) = true) := by
          intro hc
          apply hp
          have h1 : pat <+: a :: (l ++ y) := List.isPrefixOf_iff_prefix.1 hc
          have h2 : pat = (a :: (l ++ y)).take pat.length := List.prefix_iff_eq_take.1 h1
          have h3 : (a :: (l ++ y)).take pat.length = (a :: l).take pat.length := by
            have h4 : a :: (l ++ y) = (a :: l) ++ y := rfl
            rw [h4, List.take_append_of_le_length (by simp; omega)]
          apply List.isPrefixOf_iff_prefix.2
          rw [List.prefix_iff_eq_take]
          rw [← h3]
          exact h2
        rw [findSub, if_neg hbig, ih y j' hopt]
        simp [← h]

/-- Characterization of the head-reading loop on a well-formed stream: it stops
at the stream's first boundary occurrence i, having consumed some chunk-aligned
prefix pre of the stream that covers the boundary, and returns the head parsed
from the first i bytes, the remainder read past the boundary, and the unread
chunks. -/
theorem headLoop_found (ph : ParseHead) (stream : List Nat) (i : Nat)
    (rl : RequestLine) (hs : Headers)
    (hfind : findSub crlfcrlf stream = some i)
    (hparse : ph (stream.take i) = some (rl, hs)) :
    ∀ (cs : List (List Nat)) (acc : List Nat),
      (∀ c ∈ cs, c ≠ []) →
      acc ++ cs.flatten = stream →
      findSub crlfcrlf acc = none →
      ∃ (pre : List Nat) (rest : List (List Nat)),
        pre ++ rest.flatten = stream ∧ i + 4 ≤ pre.length ∧
        headLoop ph cs acc = some (rl, hs, pre.drop (i + 4), rest) := by
  intro cs
  induction cs with
  | nil =>
    intro acc hne hjoin hnone
    exfalso
    rw [List.flatten_nil, List.append_nil] at hjoin
    rw [hjoin, hfind] at hnone
    exact absurd hnone (by simp)
  | cons c cstail ih =>
    intro acc hne hjoin hnone
    have hc : c ≠ [] := hne c (List.mem_cons_self c cstail)
    have hcE : c.isEmpty = false := by simpa [List.isEmpty_iff] using hc
    have hstream_eq : (acc ++ c) ++ cstail.flatten = stream := by
      rw [List.append_assoc, ← List.flatten_cons]
      exact hjoin
    cases hf : findSub crlfcrlf (acc ++ c) with
    | some j =>
      have hext : findSub crlfcrlf ((acc ++ c) ++ cstail.flatten) = some j :=
        findSub_append_some _ _ _ j hf
      rw [hstream_eq, hfind] at hext
      injection hext with hij
      subst hij
      have hbound := findSub_some_bound crlfcrlf (acc ++ c) i hf
      have hb4 : i + 4 ≤ (acc ++ c).length := by
        simpa [crlfcrlf] using hbound
      refine ⟨acc ++ c, cstail, hstream_eq, hb4, ?_⟩
      have htake : stream.take i = (acc ++ c).take i := by
        rw [← hstream_eq]
        exact List.take_append_of_le_length (by omega)
      simp only [headLoop, hcE, Bool.false_eq_true, if_false, hf]
      rw [← htake, hparse]
    | none =>
      have hrec := ih (acc ++ c)
        (fun c' h' => hne c' (List.mem_cons_of_mem _ h'))
        (by rw [List.append_assoc, ← List.flatten_cons]; exact hjoin)
        hf
      rcases hrec with ⟨pre, rest, h1, h2, h3⟩
      refine ⟨pre, rest, h1, h2, ?_⟩
      simp only [headLoop, hcE, Bool.false_eq_true, if_false, hf]
      exact h3

/-- The assembler is insensitive to read fragmentation: on a stream consisting
of one well-formed request (boundary first occurring at i, head parsing
succeeding, declared content length equal to the residual byte count), every
division of the stream into non-empty reads assembles the same request line,
headers, and body. -/
theorem assemble_fragmentation (ph : ParseHead) (stream : List Nat) (i : Nat)
    (rl : RequestLine) (hs : Headers)
    (hfind : findSub crlfcrlf stream = some i)
    (hparse : ph (stream.take i) = some (rl, hs))
    (hlen : contentLength hs = stream.length - (i + 4)) :
    ∀ (cs : List (List Nat)), (∀ c ∈ cs, c ≠ []) → cs.flatten = stream →
      assembleModel ph cs = AsmResult.ok rl hs (stream.drop (i + 4)) := by
  intro cs hne hjoin
  rcases headLoop_found ph stream i rl hs hfind hparse cs []
      hne (by simpa using hjoin) (by decide) with ⟨pre, rest, h1, h2, h3⟩
  have hstream_len : pre.length + rest.flatten.length = stream.length := by
    rw [← h1, List.length_append]
  have hi4 : i + 4 ≤ stream.length := by omega
  have hdropjoin : pre.drop (i + 4) ++ rest.flatten = stream.drop (i + 4) := by
    rw [← h1, List.drop_append_of_le_length h2]
  have hremlen : (pre.drop (i + 4)).length = pre.length - (i + 4) := List.length_drop _ _
  have hsum : (pre.drop (i + 4)).length + rest.flatten.length = contentLength hs := by
    rw [hlen, hremlen]
    omega
  have hfst : (bodyStep (contentLength hs) (pre.drop (i + 4)) rest.flatten).1
      = some (stream.drop (i + 4)) := by
    rcases Nat.eq_zero_or_pos (contentLength hs) with h0 | hpos
    · have hdrop0 : stream.drop (i + 4) = [] := by
        apply List.eq_nil_of_length_eq_zero
        rw [List.length_drop]
        omega
      rw [hdrop0]
      simp [bodyStep, h0]
    · by_cases hlt : (pre.drop (i + 4)).length < contentLength hs
      · have hneed : contentLength hs - (pre.drop (i + 4)).length = rest.flatten.length := by
          omega
        simp only [bodyStep, if_pos hpos, if_pos hlt, hneed, if_pos (Nat.le_refl _),
          List.take_length]
        simp [hdropjoin]
      · have hconn0 : rest.flatten = [] := List.eq_nil_of_length_eq_zero (by omega)
        have hrem_full : pre.drop (i + 4) = stream.drop (i + 4) := by
          rw [← hdropjoin, hconn0, List.append_nil]
        simp only [bodyStep, if_pos hpos, if_neg hlt]
        simp [hrem_full]
  rcases hbs : bodyStep (contentLength hs) (pre.drop (i + 4)) rest.flatten with ⟨ob, reads⟩
  rw [hbs] at hfst
  simp only [Prod.fst] at hfst
  subst hfst
  simp only [assembleModel, h3, hbs]

/-- Claim C10: for a well-formed full request byte sequence (the CRLFCRLF
boundary first occurs at i, the head parses, and the declared content length
equals the number of bytes after the boundary), feeding the bytes through any
two divisions into non-empty reads — reads of size 1, reads of size 4096, and
a single chunk are all such divisions — produces an identical assembled
request: the same request line, headers, and body. -/
theorem assembler_fragmentation_invariant (ph : ParseHead) (stream : List Nat) (i : Nat)
    (rl : RequestLine) (hs : Headers)
    (hfind : findSub crlfcrlf stream = some i)
    (hparse : ph (stream.take i) = some (rl, hs))
    (hlen : contentLength hs = stream.length - (i + 4))
    (cs cs' : List (List Nat))
    (hne : ∀ c ∈ cs, c ≠ []) (hj : cs.flatten = stream)
    (hne' : ∀ c ∈ cs', c ≠ []) (hj' : cs'.flatten = stream) :
    assembleModel ph cs = assembleModel ph cs' ∧
    assembleModel ph cs = AsmResult.ok rl hs (stream.drop (i + 4)) := by
  have h1 := assemble_fragmentation ph stream i rl hs hfind hparse hlen cs hne hj
  have h2 := assemble_fragmentation ph stream i rl hs hfind hparse hlen cs' hne' hj'
  exact ⟨h1.trans h2.symm, h1⟩

/-- Head parser accepting the empty head, for the C10 witness. -/
def phEmptyHead : ParseHead := fun _ => some (rlGetRoot, [])

/-- Witness for claim C10 at a concrete input: the four boundary bytes fed as
one chunk and as four size-1 reads assemble identically. -/
theorem assembler_fragmentation_invariant_witness :
    assembleModel phEmptyHead [[13, 10, 13, 10]]
      = assembleModel phEmptyHead [[13], [10], [13], [10]] :=
  (assembler_fragmentation_invariant phEmptyHead [13, 10, 13, 10] 0 rlGetRoot []
    (by decide) rfl (by decide) [[13, 10, 13, 10]] [[13], [10], [13], [10]]
    (fun c hc => by simp at hc; simp [hc]) (by decide)
    (fun c hc => by simp at hc; rcases hc with h | h | h | h <;> simp [h]) (by decide)).1

/-- Middleware index list. -/
def mwIdxs (r : Router) : List Nat := r.middlewares.map (fun c => c.index)

/-- Well-formedness maintained by the Router registration surface: the index
lists of every container are strictly increasing, bounded by the counter, and
pairwise disjoint across containers. -/
structure RouterInv (r : Router) : Prop where
  pathsSorted : ∀ m, List.Sorted (· < ·) (entryIdxs r m)
  pathsBound : ∀ m, ∀ i ∈ entryIdxs r m, i < r.route_counter
  mwSorted : List.Sorted (· < ·) (mwIdxs r)
  mwBound : ∀ i ∈ mwIdxs r, i < r.route_counter
  pathsDisj : ∀ m m', m ≠ m' → ∀ i ∈ entryIdxs r m, i ∉ entryIdxs r m'
  pathsMwDisj : ∀ m, ∀ i ∈ entryIdxs r m, i ∉ mwIdxs r

/-- Effect of one router.rs registration on the per-method index lists. -/
theorem entryIdxs_inject (r : Router) (pat : Pattern) (h : Nat) (m m' : RequestMethod) :
    entryIdxs (routerInjectMethod r pat h m) m'
      = if m' = m then entryIdxs r m ++ [r.route_counter] else entryIdxs r m' := by
  unfold entryIdxs routerInjectMethod updatePaths
  by_cases hm : m' = m
  · subst hm
    simp
  · simp [hm]

theorem routerInv_new : RouterInv Router.new := by
  refine ⟨?_, ?_, ?_, ?_, ?_, ?_⟩ <;> simp [entryIdxs, mwIdxs, Router.new]

theorem routerInv_applyCmd (r : Router) (c : Cmd) (hv : RouterInv r) :
    RouterInv (applyCmd r c) := by
  cases c with
  | route m pat h =>
    have hcount : (applyCmd r (Cmd.route m pat h)).route_counter = r.route_counter + 1 := rfl
    have hmw : mwIdxs (applyCmd r (Cmd.route m pat h)) = mwIdxs r := rfl
    refine ⟨?_, ?_, ?_, ?_, ?_, ?_⟩
    · intro m'
      show List.Sorted (· < ·) (entryIdxs (routerInjectMethod r pat h m) m')
      rw [entryIdxs_inject]
      by_cases hm : m' = m
      · rw [if_pos hm]
        refine List.pairwise_append.2 ⟨hv.pathsSorted m, List.pairwise_singleton _ _, ?_⟩
        intro a ha b hb
        simp at hb
        rw [hb]
        exact hv.pathsBound m a ha
      · rw [if_neg hm]
        exact hv.pathsSorted m'
    · intro m' i hi
      rw [hcount]
      show i < r.route_counter + 1
      have hi' : i ∈ entryIdxs (routerInjectMethod r pat h m) m' := hi
      rw [entryIdxs_inject] at hi'
      by_cases hm : m' = m
      · rw [if_pos hm] at hi'
        rcases List.mem_append.1 hi' with h1 | h2
        · exact Nat.lt_succ_of_lt (hv.pathsBound m i h1)
        · simp at h2
          omega
      · rw [if_neg hm] at hi'
        exact Nat.lt_succ_of_lt (hv.pathsBound m' i hi')
    · rw [hmw]
      exact hv.mwSorted
    · intro i hi
      rw [hmw] at hi
      rw [hcount]
      exact Nat.lt_succ_of_lt (hv.mwBound i hi)
    · intro m1 m2 hne i hi1 hi2
      have hi1' : i ∈ entryIdxs (routerInjectMethod r pat h m) m1 := hi1
      have hi2' : i ∈ entryIdxs (routerInjectMethod r pat h m) m2 := hi2
      rw [entryIdxs_inject] at hi1' hi2'
      by_cases hm1 : m1 = m
      · rw [if_pos hm1] at hi1'
        have hm2 : ¬ m2 = m := by
          intro hc
          exact hne (hm1.trans hc.symm)
        rw [if_neg hm2] at hi2'
        rcases List.mem_append.1 hi1' with h1 | h2
        · exact hv.pathsDisj m m2 (fun hc => hm2 hc.symm) i (hm1 ▸ h1) hi2'
        · simp at h2
          subst h2
          exact absurd (hv.pathsBound m2 _ hi2') (Nat.lt_irrefl _)
      · rw [if_neg hm1] at hi1'
        by_cases hm2 : m2 = m
        · rw [if_pos hm2] at hi2'
          rcases List.mem_append.1 hi2' with h1 | h2
          · exact hv.pathsDisj m1 m (fun hc => hm1 hc) i hi1' (hm2 ▸ h1)
          · simp at h2
            subst h2
            exact absurd (hv.pathsBound m1 _ hi1') (Nat.lt_irrefl _)
        · rw [if_neg hm2] at hi2'
          exact hv.pathsDisj m1 m2 hne i hi1' hi2'
    · intro m' i hi
      rw [hmw]
      have hi' : i ∈ entryIdxs (routerInjectMethod r pat h m) m' := hi
      rw [entryIdxs_inject] at hi'
      by_cases hm : m' = m
      · rw [if_pos hm] at hi'
        rcases List.mem_append.1 hi' with h1 | h2
        · exact hv.pathsMwDisj m i h1
        · simp at h2
          subst h2
          intro hc
          exact absurd (hv.mwBound _ hc) (Nat.lt_irrefl _)
      · rw [if_neg hm] at hi'
        exact hv.pathsMwDisj m' i hi'
  | mw h =>
    have hent : ∀ m', entryIdxs (applyCmd r (Cmd.mw h)) m' = entryIdxs r m' := fun _ => rfl
    have hmw : mwIdxs (applyCmd r (Cmd.mw h)) = mwIdxs r ++ [r.route_counter] := by
      simp [applyCmd, Router.add, mwIdxs]
    have hcount : (applyCmd r (Cmd.mw h)).route_counter = r.route_counter + 1 := rfl
    refine ⟨?_, ?_, ?_, ?_, ?_, ?_⟩
    · intro m'
      rw [hent]
      exact hv.pathsSorted m'
    · intro m' i hi
      rw [hent] at hi
      rw [hcount]
      exact Nat.lt_succ_of_lt (hv.pathsBound m' i hi)
    · rw [hmw]
      refine List.pairwise_append.2 ⟨hv.mwSorted, List.pairwise_singleton _ _, ?_⟩
      intro a ha b hb
      simp at hb
      rw [hb]
      exact hv.mwBound a ha
    · intro i hi
      rw [hmw] at hi
      rw [hcount]
      rcases List.mem_append.1 hi with h1 | h2
      · exact Nat.lt_succ_of_lt (hv.mwBound i h1)
      · simp at h2
        omega
    · intro m1 m2 hne i hi1 hi2
      rw [hent] at hi1 hi2
      exact hv.pathsDisj m1 m2 hne i hi1 hi2
    · intro m' i hi
      rw [hent] at hi
      rw [hmw]
      intro hc
      rcases List.mem_append.1 hc with h1 | h2
      · exact hv.pathsMwDisj m' i hi h1
      · simp at h2
        subst h2
        exact absurd (hv.pathsBound m' _ hi) (Nat.lt_irrefl _)

theorem routerInv_build (cmds : List Cmd) : RouterInv (build cmds) := by
  have hgen : ∀ (cs : List Cmd) (r : Router), RouterInv r → RouterInv (cs.foldl applyCmd r) := by
    intro cs
    induction cs with
    | nil => intro r hr; exact hr
    | cons c cs ih =>
      intro r hr
      exact ih (applyCmd r c) (routerInv_applyCmd r c hr)
  exact hgen cmds Router.new routerInv_new

/-- Injectivity of some-pair results, oriented so that obtain-rfl keeps the
structured side's names. -/
theorem some_pair_eq {A B : Type} {a c : A} {b d : B}
    (h : some (a, b) = some (c, d)) : a = c ∧ b = d := by
  injection h with h'
  exact ⟨congrArg Prod.fst h', congrArg Prod.snd h'⟩

/-- The selection step fails only when every source is exhausted. -/
theorem runStep_none (srcs : List (List Closures)) (h : runStep srcs = none) :
    ∀ l ∈ srcs, l = [] := by
  induction srcs with
  | nil =>
    intro l hl
    simp at hl
  | cons hd rest ih =>
    intro l hl
    cases hd with
    | nil =>
      rw [runStep] at h
      cases hstep : runStep rest with
      | none =>
        rcases List.mem_cons.1 hl with rfl | hmem
        · rfl
        · exact ih hstep l hmem
      | some p =>
        simp [hstep] at h
    | cons c cs =>
      rw [runStep] at h
      cases hstep : runStep rest with
      | none =>
        simp [hstep] at h
      | some p =>
        rcases p with ⟨c', rest'⟩
        simp only [hstep] at h
        by_cases hle : c.index ≤ c'.index
        · rw [if_pos hle] at h
          simp at h
        · rw [if_neg hle] at h
          simp at h

/-- The selection step removes exactly the picked head: the flattened sources
are a permutation of the picked entry consed onto the flattened remaining
sources. -/
theorem runStep_perm (srcs : List (List Closures)) :
    ∀ (c : Closures) (srcs' : List (List Closures)), runStep srcs = some (c, srcs') →
      List.Perm srcs.flatten (c :: srcs'.flatten) := by
  induction srcs with
  | nil =>
    intro c srcs' h
    simp [runStep] at h
  | cons hd rest ih =>
    intro c srcs' h
    cases hd with
    | nil =>
      rw [runStep] at h
      cases hstep : runStep rest with
      | none =>
        simp [hstep] at h
      | some p =>
        rcases p with ⟨c0, rs⟩
        simp only [hstep] at h
        obtain ⟨rfl, rfl⟩ := some_pair_eq h
        simp only [List.flatten_cons, List.nil_append]
        exact ih c0 rs hstep
    | cons c0 cs =>
      rw [runStep] at h
      cases hstep : runStep rest with
      | none =>
        simp only [hstep] at h
        obtain ⟨rfl, rfl⟩ := some_pair_eq h
        simp [List.flatten_cons]
      | some p =>
        rcases p with ⟨c', rest'⟩
        simp only [hstep] at h
        by_cases hle : c0.index ≤ c'.index
        · rw [if_pos hle] at h
          obtain ⟨rfl, rfl⟩ := some_pair_eq h
          simp [List.flatten_cons]
        · rw [if_neg hle] at h
          obtain ⟨rfl, rfl⟩ := some_pair_eq h
          have htail := ih c' rest' hstep
          have h1 : List.Perm (cs ++ rest.flatten) (cs ++ (c' :: rest'.flatten)) :=
            List.Perm.append_left cs htail
          have h2 : List.Perm (cs ++ (c' :: rest'.flatten)) (c' :: (cs ++ rest'.flatten)) :=
            List.perm_middle
          have h3 : List.Perm (c0 :: (cs ++ rest.flatten)) (c0 :: c' :: (cs ++ rest'.flatten)) :=
            (h1.trans h2).cons c0
          have h4 := h3.trans (List.Perm.swap c' c0 (cs ++ rest'.flatten))
          simpa [List.flatten_cons] using h4

/-- The picked entry has the smallest index among all remaining entries (for
per-source sorted inputs). -/
theorem runStep_min (srcs : List (List Closures)) :
    ∀ (c : Closures) (srcs' : List (List Closures)),
      (∀ l ∈ srcs, List.Sorted leIdx l) →
      runStep srcs = some (c, srcs') →
      ∀ x ∈ srcs.flatten, c.index ≤ x.index := by
  induction srcs with
  | nil =>
    intro c srcs' _ h
    simp [runStep] at h
  | cons hd rest ih =>
    intro c srcs' hs h
    have hrest : ∀ l ∈ rest, List.Sorted leIdx l :=
      fun l hl => hs l (List.mem_cons_of_mem _ hl)
    cases hd with
    | nil =>
      rw [runStep] at h
      cases hstep : runStep rest with
      | none =>
        simp [hstep] at h
      | some p =>
        rcases p with ⟨c0, rs⟩
        simp only [hstep] at h
        obtain ⟨rfl, rfl⟩ := some_pair_eq h
        intro x hx
        simp only [List.flatten_cons, List.nil_append] at hx
        exact ih c0 rs hrest hstep x hx
    | cons c0 cs =>
      have hsort := hs (c0 :: cs) (List.mem_cons_self _ _)
      rw [runStep] at h
      cases hstep : runStep rest with
      | none =>
        simp only [hstep] at h
        obtain ⟨rfl, rfl⟩ := some_pair_eq h
        intro x hx
        simp only [List.flatten_cons] at hx
        rcases List.mem_append.1 hx with h1 | h2
        · rcases List.mem_cons.1 h1 with rfl | hmem
          · exact Nat.le_refl _
          · exact List.rel_of_sorted_cons hsort x hmem
        · have hempty : rest.flatten = [] :=
            List.flatten_eq_nil_iff.2 (runStep_none rest hstep)
          rw [hempty] at h2
          simp at h2
      | some p =>
        rcases p with ⟨c', rest'⟩
        simp only [hstep] at h
        by_cases hle : c0.index ≤ c'.index
        · rw [if_pos hle] at h
          obtain ⟨rfl, rfl⟩ := some_pair_eq h
          intro x hx
          simp only [List.flatten_cons] at hx
          rcases List.mem_append.1 hx with h1 | h2
          · rcases List.mem_cons.1 h1 with rfl | hmem
            · exact Nat.le_refl _
            · exact List.rel_of_sorted_cons hsort x hmem
          · exact Nat.le_trans hle (ih c' rest' hrest hstep x h2)
        · rw [if_neg hle] at h
          obtain ⟨rfl, rfl⟩ := some_pair_eq h
          have hlt : c'.index < c0.index := Nat.lt_of_not_le hle
          intro x hx
          simp only [List.flatten_cons] at hx
          rcases List.mem_append.1 hx with h1 | h2
          · rcases List.mem_cons.1 h1 with rfl | hmem
            · exact Nat.le_of_lt hlt
            · exact Nat.le_trans (Nat.le_of_lt hlt) (List.rel_of_sorted_cons hsort x hmem)
          · exact ih c' rest' hrest hstep x h2

/-- The selection step leaves every remaining source sorted. -/
theorem runStep_sorted (srcs : List (List Closures)) :
    ∀ (c : Closures) (srcs' : List (List Closures)),
      (∀ l ∈ srcs, List.Sorted leIdx l) →
      runStep srcs = some (c, srcs') →
      ∀ l ∈ srcs', List.Sorted leIdx l := by
  induction srcs with
  | nil =>
    intro c srcs' _ h
    simp [runStep] at h
  | cons hd rest ih =>
    intro c srcs' hs h
    have hrest : ∀ l ∈ rest, List.Sorted leIdx l :=
      fun l hl => hs l (List.mem_cons_of_mem _ hl)
    cases hd with
    | nil =>
      rw [runStep] at h
      cases hstep : runStep rest with
      | none =>
        simp [hstep] at h
      | some p =>
        rcases p with ⟨c0, rs⟩
        simp only [hstep] at h
        obtain ⟨rfl, rfl⟩ := some_pair_eq h
        intro l hl
        rcases List.mem_cons.1 hl with rfl | hmem
        · exact List.sorted_nil
        · exact ih c0 rs hrest hstep l hmem
    | cons c0 cs =>
      have hsort := hs (c0 :: cs) (List.mem_cons_self _ _)
      rw [runStep] at h
      cases hstep : runStep rest with
      | none =>
        simp only [hstep] at h
        obtain ⟨rfl, rfl⟩ := some_pair_eq h
        intro l hl
        rcases List.mem_cons.1 hl with rfl | hmem
        · exact hsort.of_cons
        · exact hrest l hmem
      | some p =>
        rcases p with ⟨c', rest'⟩
        simp only [hstep] at h
        by_cases hle : c0.index ≤ c'.index
        · rw [if_pos hle] at h
          obtain ⟨rfl, rfl⟩ := some_pair_eq h
          intro l hl
          rcases List.mem_cons.1 hl with rfl | hmem
          · exact hsort.of_cons
          · exact hrest l hmem
        · rw [if_neg hle] at h
          obtain ⟨rfl, rfl⟩ := some_pair_eq h
          intro l hl
          rcases List.mem_cons.1 hl with rfl | hmem
          · exact hsort
          · exact ih c' rest' hrest hstep l hmem

/-- The merge loop of Router::run invokes handlers in strictly increasing index
order (given per-source sortedness and globally distinct indices), and every
invoked handler comes from the flattened sources. -/
theorem runAux_sorted_mem (env : Env) (rl : RequestLine) :
    ∀ (n : Nat) (srcs : List (List Closures)) (res : Response),
      (∀ l ∈ srcs, List.Sorted leIdx l) →
      (srcs.flatten.map (fun c => c.index)).Nodup →
      List.Pairwise (fun p q => p.1.index < q.1.index) (runAux env rl n srcs res).2 ∧
      ∀ p ∈ (runAux env rl n srcs res).2, p.1 ∈ srcs.flatten := by
  intro n
  induction n with
  | zero =>
    intro srcs res _ _
    simp [runAux]
  | succ m ih =>
    intro srcs res hs hnd
    cases hstep : runStep srcs with
    | none =>
      simp [runAux, hstep]
    | some p =>
      rcases p with ⟨c, srcs'⟩
      have hperm := runStep_perm srcs c srcs' hstep
      have hmin := runStep_min srcs c srcs' hs hstep
      have hsort' := runStep_sorted srcs c srcs' hs hstep
      have hndc : ((c :: srcs'.flatten).map (fun c => c.index)).Nodup :=
        ((hperm.map (fun c => c.index)).nodup_iff).1 hnd
      rw [List.map_cons] at hndc
      have hnd' : (srcs'.flatten.map (fun c => c.index)).Nodup := (List.nodup_cons.1 hndc).2
      have hcni : c.index ∉ srcs'.flatten.map (fun c => c.index) := (List.nodup_cons.1 hndc).1
      simp only [runAux, hstep]
      by_cases hf : (env c.closure rl res).1.should_continue
      · simp only [hf, if_true]
        have hrec := ih srcs' (env c.closure rl res).2 hsort' hnd'
        constructor
        · refine List.Pairwise.cons ?_ hrec.1
          intro q hq
          have hq' : q.1 ∈ srcs'.flatten := hrec.2 q hq
          have hle : c.index ≤ q.1.index :=
            hmin q.1 (hperm.mem_iff.2 (List.mem_cons_of_mem _ hq'))
          have hne : c.index ≠ q.1.index := by
            intro hcontra
            exact hcni (hcontra ▸ List.mem_map_of_mem _ hq')
          exact Nat.lt_of_le_of_ne hle hne
        · intro q hq
          rcases List.mem_cons.1 hq with rfl | hmem
          · exact hperm.mem_iff.2 (List.mem_cons_self _ _)
          · exact hperm.mem_iff.2 (List.mem_cons_of_mem _ (hrec.2 q hmem))
      · simp only [hf, Bool.false_eq_true, if_false]
        constructor
        · exact List.pairwise_singleton _ _
        · intro q hq
          rcases List.mem_cons.1 hq with rfl | hmem
          · exact hperm.mem_iff.2 (List.mem_cons_self _ _)
          · simp at hmem

/-- With full fuel and handlers that always continue, the merge loop invokes
exactly the flattened sources (as a permutation). -/
theorem runAux_perm_all_next (env : Env) (rl : RequestLine)
    (henv : ∀ (h : Nat) (req : RequestLine) (res' : Response), (env h req res').1 = Flow.Next) :
    ∀ (n : Nat) (srcs : List (List Closures)) (res : Response),
      n = srcs.flatten.length →
      List.Perm ((runAux env rl n srcs res).2.map (fun p => p.1)) srcs.flatten := by
  intro n
  induction n with
  | zero =>
    intro srcs res hn
    have : srcs.flatten = [] := List.eq_nil_of_length_eq_zero hn.symm
    simp [runAux, this]
  | succ m ih =>
    intro srcs res hn
    cases hstep : runStep srcs with
    | none =>
      exfalso
      have : srcs.flatten = [] := List.flatten_eq_nil_iff.2 (runStep_none srcs hstep)
      rw [this] at hn
      simp at hn
    | some p =>
      rcases p with ⟨c, srcs'⟩
      have hperm := runStep_perm srcs c srcs' hstep
      have hlen : m = srcs'.flatten.length := by
        have hl := hperm.length_eq
        rw [List.length_cons] at hl
        omega
      simp only [runAux, hstep, henv c.closure rl res, Flow.should_continue, if_true]
      have hrec := ih srcs' (env c.closure rl res).2 hlen
      simp only [List.map_cons]
      exact (hrec.cons c).trans hperm.symm

theorem sortIdx_sorted (l : List Closures) : List.Sorted leIdx (sortIdx l) :=
  List.sorted_insertionSort _ _

theorem sortIdx_perm (l : List Closures) : List.Perm (sortIdx l) l :=
  List.perm_insertionSort _ _

/-- The append-only middleware list of a well-formed router is index-sorted. -/
theorem mws_sorted (r : Router) (hinv : RouterInv r) : List.Sorted leIdx r.middlewares := by
  have h1 := (List.pairwise_map).1 hinv.mwSorted
  exact h1.imp (fun hab => Nat.le_of_lt hab)

theorem matchesFor_eq (r : Router) (m : RequestMethod) (node : List (Pattern × Closures))
    (path : List String) (h : r.paths m = some node) :
    matchesFor r m path = matchList node path := by
  unfold matchesFor
  rw [h]
  rfl

theorem matchesFor_nil (r : Router) (m : RequestMethod) (path : List String)
    (h : r.paths m = none) : matchesFor r m path = [] := by
  unfold matchesFor
  rw [h]
  rfl

/-- The index list of a well-formed per-method container has no duplicates. -/
theorem entryIdxs_nodup (r : Router) (hinv : RouterInv r) (m : RequestMethod) :
    (entryIdxs r m).Nodup :=
  (hinv.pathsSorted m).imp Nat.ne_of_lt

/-- Indices of matched entries are indices stored for the method. -/
theorem matchesFor_idx_mem (r : Router) (m : RequestMethod) (path : List String) (i : Nat)
    (h : i ∈ (matchesFor r m path).map (fun c => c.index)) : i ∈ entryIdxs r m := by
  unfold matchesFor matchList at h
  rw [List.map_map] at h
  unfold entryIdxs
  exact ((List.filter_sublist _).map _).subset h

/-- Matched index lists inherit distinctness from the container. -/
theorem matchesFor_idx_nodup (r : Router) (hinv : RouterInv r) (m : RequestMethod)
    (path : List String) : ((matchesFor r m path).map (fun c => c.index)).Nodup := by
  unfold matchesFor matchList
  rw [List.map_map]
  exact (entryIdxs_nodup r hinv m).sublist ((List.filter_sublist _).map _)

/-- Distinctness of the combined index list of the three dispatch sources. -/
theorem nodup_srcs_idx (r : Router) (rl : RequestLine) (hinv : RouterInv r)
    (hm : rl.method ≠ RequestMethod.All) (L1 L2 : List Closures)
    (h1n : (L1.map (fun c => c.index)).Nodup) (h2n : (L2.map (fun c => c.index)).Nodup)
    (h1s : ∀ i ∈ L1.map (fun c => c.index), i ∈ entryIdxs r rl.method)
    (h2s : ∀ i ∈ L2.map (fun c => c.index), i ∈ entryIdxs r RequestMethod.All) :
    ((L1 ++ (L2 ++ r.middlewares)).map (fun c => c.index)).Nodup := by
  rw [List.map_append, List.map_append]
  have hmwn : (r.middlewares.map (fun c => c.index)).Nodup :=
    hinv.mwSorted.imp Nat.ne_of_lt
  refine List.nodup_append.2 ⟨h1n, List.nodup_append.2 ⟨h2n, hmwn, ?_⟩, ?_⟩
  · intro a ha hb
    exact hinv.pathsMwDisj RequestMethod.All a (h2s a ha) hb
  · intro a ha hmem
    rcases List.mem_append.1 hmem with hb | hc
    · exact hinv.pathsDisj rl.method RequestMethod.All hm a (h1s a ha) (h2s a hb)
    · exact hinv.pathsMwDisj rl.method a (h1s a ha) hc

/-- Core of claim C2, stated over the runAux call with explicit sources. -/
theorem run_merge_inner (env : Env) (rl : RequestLine) (res : Response) (r : Router)
    (hinv : RouterInv r) (hm : rl.method ≠ RequestMethod.All)
    (srcs : List (List Closures)) (L1 L2 : List Closures)
    (hsorted : ∀ l ∈ srcs, List.Sorted leIdx l)
    (hflat : srcs.flatten = L1 ++ (L2 ++ r.middlewares))
    (hp1 : List.Perm L1 (matchesFor r rl.method rl.path))
    (hp2 : List.Perm L2 (matchesFor r RequestMethod.All rl.path))
    (h1s : ∀ i ∈ L1.map (fun c => c.index), i ∈ entryIdxs r rl.method)
    (h2s : ∀ i ∈ L2.map (fun c => c.index), i ∈ entryIdxs r RequestMethod.All)
    (h1n : (L1.map (fun c => c.index)).Nodup) (h2n : (L2.map (fun c => c.index)).Nodup) :
    List.Pairwise (fun p q => p.1.index < q.1.index)
      (runAux env rl ((srcs.map List.length).sum) srcs res).2 ∧
    (∀ p ∈ (runAux env rl ((srcs.map List.length).sum) srcs res).2,
      p.1 ∈ matchesFor r rl.method rl.path ∨
      p.1 ∈ matchesFor r RequestMethod.All rl.path ∨ p.1 ∈ r.middlewares) ∧
    ((∀ (hid : Nat) (req : RequestLine) (res' : Response), (env hid req res').1 = Flow.Next) →
      List.Perm ((runAux env rl ((srcs.map List.length).sum) srcs res).2.map (fun p => p.1))
        (matchesFor r rl.method rl.path ++ matchesFor r RequestMethod.All rl.path ++
          r.middlewares)) := by
  have hnd : (srcs.flatten.map (fun c => c.index)).Nodup := by
    rw [hflat]
    exact nodup_srcs_idx r rl hinv hm L1 L2 h1n h2n h1s h2s
  have hmain := runAux_sorted_mem env rl ((srcs.map List.length).sum) srcs res hsorted hnd
  refine ⟨hmain.1, ?_, ?_⟩
  · intro p hp
    have hmem := hmain.2 p hp
    rw [hflat] at hmem
    rcases List.mem_append.1 hmem with hA | hBC
    · exact Or.inl (hp1.mem_iff.1 hA)
    · rcases List.mem_append.1 hBC with hB | hC
      · exact Or.inr (Or.inl (hp2.mem_iff.1 hB))
      · exact Or.inr (Or.inr hC)
  · intro henv
    have hperm := runAux_perm_all_next env rl henv ((srcs.map List.length).sum) srcs res
      (List.length_flatten srcs).symm
    rw [hflat] at hperm
    have hfin : List.Perm (L1 ++ (L2 ++ r.middlewares))
        (matchesFor r rl.method rl.path ++ matchesFor r RequestMethod.All rl.path ++
          r.middlewares) := by
      rw [List.append_assoc]
      exact hp1.append (hp2.append (List.Perm.refl _))
    exact hperm.trans hfin

/-- Claim C2 over an arbitrary well-formed registry. -/
theorem run_merge_of_inv (env : Env) (r : Router) (rl : RequestLine) (res : Response)
    (hinv : RouterInv r) (hm : rl.method ≠ RequestMethod.All) :
    List.Pairwise (fun p q => p.1.index < q.1.index) (Router.run env r rl res).2 ∧
    (∀ p ∈ (Router.run env r rl res).2,
      p.1 ∈ matchesFor r rl.method rl.path ∨
      p.1 ∈ matchesFor r RequestMethod.All rl.path ∨ p.1 ∈ r.middlewares) ∧
    ((∀ (hid : Nat) (req : RequestLine) (res' : Response), (env hid req res').1 = Flow.Next) →
      List.Perm ((Router.run env r rl res).2.map (fun p => p.1))
        (matchesFor r rl.method rl.path ++ matchesFor r RequestMethod.All rl.path ++
          r.middlewares)) := by
  have hmws := mws_sorted r hinv
  unfold Router.run
  cases h1 : r.paths rl.method with
  | some node1 =>
    have hM1 := matchesFor_eq r rl.method node1 rl.path h1
    cases h2 : r.paths RequestMethod.All with
    | some node2 =>
      have hM2 := matchesFor_eq r RequestMethod.All node2 rl.path h2
      simp only
      refine run_merge_inner env rl res r hinv hm _
        (sortIdx (matchList node1 rl.path)) (sortIdx (matchList node2 rl.path))
        ?_ (by simp) ?_ ?_ ?_ ?_ ?_ ?_
      · intro l hl
        rcases List.mem_append.1 hl with hA | hB
        · rcases List.mem_append.1 hA with hA1 | hA2
          · simp at hA1
            rw [hA1]
            exact sortIdx_sorted _
          · simp at hA2
            rw [hA2]
            exact sortIdx_sorted _
        · simp at hB
          rw [hB]
          exact hmws
      · rw [hM1]
        exact sortIdx_perm _
      · rw [hM2]
        exact sortIdx_perm _
      · intro i hi
        apply matchesFor_idx_mem r rl.method rl.path i
        rw [hM1]
        exact (((sortIdx_perm _).map (fun c => c.index)).mem_iff).1 hi
      · intro i hi
        apply matchesFor_idx_mem r RequestMethod.All rl.path i
        rw [hM2]
        exact (((sortIdx_perm _).map (fun c => c.index)).mem_iff).1 hi
      · have := matchesFor_idx_nodup r hinv rl.method rl.path
        rw [hM1] at this
        exact (((sortIdx_perm _).map (fun c => c.index)).nodup_iff).2 this
      · have := matchesFor_idx_nodup r hinv RequestMethod.All rl.path
        rw [hM2] at this
        exact (((sortIdx_perm _).map (fun c => c.index)).nodup_iff).2 this
    | none =>
      have hM2 := matchesFor_nil r RequestMethod.All rl.path h2
      simp only
      refine run_merge_inner env rl res r hinv hm _
        (sortIdx (matchList node1 rl.path)) [] ?_ (by simp) ?_ ?_ ?_ ?_ ?_ ?_
      · intro l hl
        rcases List.mem_append.1 hl with hA | hB
        · rcases List.mem_append.1 hA with hA1 | hA2
          · simp at hA1
            rw [hA1]
            exact sortIdx_sorted _
          · simp at hA2
        · simp at hB
          rw [hB]
          exact hmws
      · rw [hM1]
        exact sortIdx_perm _
      · rw [hM2]
      · intro i hi
        apply matchesFor_idx_mem r rl.method rl.path i
        rw [hM1]
        exact (((sortIdx_perm _).map (fun c => c.index)).mem_iff).1 hi
      · intro i hi
        simp at hi
      · have := matchesFor_idx_nodup r hinv rl.method rl.path
        rw [hM1] at this
        exact (((sortIdx_perm _).map (fun c => c.index)).nodup_iff).2 this
      · simp
  | none =>
    have hM1 := matchesFor_nil r rl.method rl.path h1
    cases h2 : r.paths RequestMethod.All with
    | some node2 =>
      have hM2 := matchesFor_eq r RequestMethod.All node2 rl.path h2
      simp only
      refine run_merge_inner env rl res r hinv hm _
        [] (sortIdx (matchList node2 rl.path)) ?_ (by simp) ?_ ?_ ?_ ?_ ?_ ?_
      · intro l hl
        rcases List.mem_append.1 hl with hA | hB
        · rcases List.mem_append.1 hA with hA1 | hA2
          · simp at hA1
          · simp at hA2
            rw [hA2]
            exact sortIdx_sorted _
        · simp at hB
          rw [hB]
          exact hmws
      · rw [hM1]
      · rw [hM2]
        exact sortIdx_perm _
      · intro i hi
        simp at hi
      · intro i hi
        apply matchesFor_idx_mem r RequestMethod.All rl.path i
        rw [hM2]
        exact (((sortIdx_perm _).map (fun c => c.index)).mem_iff).1 hi
      · simp
      · have := matchesFor_idx_nodup r hinv RequestMethod.All rl.path
        rw [hM2] at this
        exact (((sortIdx_perm _).map (fun c => c.index)).nodup_iff).2 this
    | none =>
      have hM2 := matchesFor_nil r RequestMethod.All rl.path h2
      simp only
      refine run_merge_inner env rl res r hinv hm _ [] [] ?_ (by simp) ?_ ?_ ?_ ?_ ?_ ?_
      · intro l hl
        rcases List.mem_append.1 hl with hA | hB
        · simp at hA
        · simp at hB
          rw [hB]
          exact hmws
      · rw [hM1]
      · rw [hM2]
      · intro i hi
        simp at hi
      · intro i hi
        simp at hi
      · simp
      · simp

/-- Claim C2: for every registry built through the Router registration surface
and every request whose method is a wire method (not the routing-only All
marker), the ordered dispatcher Router::run pulls the match lists of the
request-method trie, the All trie, and the middleware list, and invokes the
handlers in strictly ascending global index order by the k-way merge —
moreover, every invoked handler is one of the matched ones, and when every
handler continues, exactly the matched handlers of all three sources are
invoked (a permutation, here in ascending order). -/
theorem dispatcher_kway_merge (env : Env) (cmds : List Cmd) (rl : RequestLine) (res : Response)
    (hm : rl.method ≠ RequestMethod.All) :
    List.Pairwise (fun p q => p.1.index < q.1.index) (Router.run env (build cmds) rl res).2 ∧
    (∀ p ∈ (Router.run env (build cmds) rl res).2,
      p.1 ∈ matchesFor (build cmds) rl.method rl.path ∨
      p.1 ∈ matchesFor (build cmds) RequestMethod.All rl.path ∨
      p.1 ∈ (build cmds).middlewares) ∧
    ((∀ (hid : Nat) (req : RequestLine) (res' : Response), (env hid req res').1 = Flow.Next) →
      List.Perm ((Router.run env (build cmds) rl res).2.map (fun p => p.1))
        (matchesFor (build cmds) rl.method rl.path ++
          matchesFor (build cmds) RequestMethod.All rl.path ++ (build cmds).middlewares)) :=
  run_merge_of_inv env (build cmds) rl res (routerInv_build cmds) hm

/-- Witness for claim C2 at a concrete input: a middleware (index 0) and a GET
route (index 1) are dispatched by the merge in strictly ascending index order. -/
theorem dispatcher_kway_merge_witness :
    List.Pairwise (fun p q => p.1.index < q.1.index)
      (Router.run envNext (build [Cmd.mw 9, Cmd.route RequestMethod.Get [] 5]) rlGetRoot
        Response.new).2 :=
  (dispatcher_kway_merge envNext [Cmd.mw 9, Cmd.route RequestMethod.Get [] 5] rlGetRoot
    Response.new (by decide)).1

end OctaneM
